import Mathlib

/-!
Verification of the KNN neighbor-finding and distance-metric caching subsystem
of `basic_models/nearest_neighbors.py`.

Modelling conventions:
- a dataframe row (a pandas named tuple) is a `Pt` with its index label
  (`Index`), its attribute vector (`attrs`) and its timestamp column (`t`);
- `float` values are modelled as rationals (`ℚ`);
- a pandas `Series` of distances is a list of values, or a list of
  (index label, value) pairs where the index labels matter;
- raising an exception is modelled as returning `Except.error` / `none`;
- Python's stable `list.sort` and pandas `sort_values` are modelled by the
  stable insertion sort `sortK` below.
-/

/-- A dataframe row: index label, attribute vector, timestamp column. -/
structure Pt where
  Index : Nat
  attrs : List ℚ
  t : ℚ
deriving DecidableEq, Repr

/-- The `Neighbor` record of the source (`value`, `distance`;
`identifier` is derived as `value.Index`). -/
structure Neighbor where
  value : Pt
  distance : ℚ
deriving DecidableEq, Repr

/-- `self.identifier = value.Index` in `Neighbor.__init__`. -/
def Neighbor.identifier (n : Neighbor) : Nat :=
  n.value.Index

/-- Stable insertion of one element into a list sorted by `key`
(an element is placed before the first strictly-greater element,
hence before any later element with an equal key). -/
def insertK {α : Type} (key : α → ℚ) (x : α) : List α → List α
  | [] => [x]
  | y :: ys => if key x ≤ key y then x :: y :: ys else y :: insertK key x ys

/-- Stable sort by a rational-valued key: the model of Python's stable
`list.sort(key=...)` and of pandas `Series.sort_values`. -/
def sortK {α : Type} (key : α → ℚ) : List α → List α
  | [] => []
  | x :: xs => insertK key x (sortK key xs)

theorem mem_insertK {α : Type} (key : α → ℚ) (x : α) (l : List α) (a : α) :
    a ∈ insertK key x l ↔ a = x ∨ a ∈ l := by
  induction l with
  | nil => simp [insertK]
  | cons y ys ih =>
      by_cases h : key x ≤ key y
      · simp [insertK, h]
      · simp only [insertK, if_neg h, List.mem_cons, ih]
        tauto

theorem insertK_perm {α : Type} (key : α → ℚ) (x : α) (l : List α) :
    List.Perm (insertK key x l) (x :: l) := by
  induction l with
  | nil => simp [insertK]
  | cons y ys ih =>
      by_cases h : key x ≤ key y
      · simp [insertK, h]
      · simp only [insertK, if_neg h]
        exact (List.Perm.cons y ih).trans (List.Perm.swap x y ys)

theorem sortK_perm {α : Type} (key : α → ℚ) (l : List α) :
    List.Perm (sortK key l) l := by
  induction l with
  | nil => simp [sortK]
  | cons x xs ih =>
      exact (insertK_perm key x (sortK key xs)).trans (List.Perm.cons x ih)

theorem mem_sortK {α : Type} (key : α → ℚ) (l : List α) (a : α) :
    a ∈ sortK key l ↔ a ∈ l :=
  (sortK_perm key l).mem_iff

theorem length_sortK {α : Type} (key : α → ℚ) (l : List α) :
    (sortK key l).length = l.length :=
  (sortK_perm key l).length_eq

theorem pairwise_le_insertK {α : Type} (key : α → ℚ) (x : α) (l : List α)
    (h : l.Pairwise (fun a b => key a ≤ key b)) :
    (insertK key x l).Pairwise (fun a b => key a ≤ key b) := by
  induction l with
  | nil => simp [insertK]
  | cons y ys ih =>
      rcases List.pairwise_cons.mp h with ⟨hy, hys⟩
      by_cases hxy : key x ≤ key y
      · simp only [insertK, if_pos hxy]
        refine List.pairwise_cons.mpr ⟨?_, h⟩
        intro a ha
        rcases List.mem_cons.mp ha with rfl | ha
        · exact hxy
        · exact le_trans hxy (hy a ha)
      · simp only [insertK, if_neg hxy]
        refine List.pairwise_cons.mpr ⟨?_, ih hys⟩
        intro a ha
        rcases (mem_insertK key x ys a).mp ha with rfl | ha
        · exact le_of_lt (lt_of_not_le hxy)
        · exact hy a ha

theorem sortK_pairwise_le {α : Type} (key : α → ℚ) (l : List α) :
    (sortK key l).Pairwise (fun a b => key a ≤ key b) := by
  induction l with
  | nil => simp [sortK]
  | cons x xs ih => exact pairwise_le_insertK key x (sortK key xs) ih

/-- Stability of `insertK`, in lexicographic form: if the sorted list is
pairwise lex-ordered by (key, rank) and the inserted element has higher
rank than everything in the list, the result is pairwise lex-ordered. -/
theorem pairwise_lex_insertK {α : Type} (key : α → ℚ) (rank : α → Nat)
    (x : α) (l : List α)
    (h : l.Pairwise (fun a b => key a < key b ∨ (key a = key b ∧ rank a < rank b)))
    (hx : ∀ y ∈ l, rank x < rank y) :
    (insertK key x l).Pairwise
      (fun a b => key a < key b ∨ (key a = key b ∧ rank a < rank b)) := by
  induction l with
  | nil => simp [insertK]
  | cons y ys ih =>
      rcases List.pairwise_cons.mp h with ⟨hy, hys⟩
      by_cases hxy : key x ≤ key y
      · simp only [insertK, if_pos hxy]
        refine List.pairwise_cons.mpr ⟨?_, h⟩
        intro a ha
        have hka : key y ≤ key a := by
          rcases List.mem_cons.mp ha with rfl | ha
          · exact le_refl _
          · rcases hy a ha with h1 | ⟨h1, _⟩
            · exact le_of_lt h1
            · exact le_of_eq h1
        have hxa : key x ≤ key a := le_trans hxy hka
        rcases lt_or_eq_of_le hxa with h1 | h1
        · exact Or.inl h1
        · exact Or.inr ⟨h1, hx a ha⟩
      · simp only [insertK, if_neg hxy]
        refine List.pairwise_cons.mpr ⟨?_, ih hys (fun z hz => hx z (List.mem_cons_of_mem y hz))⟩
        intro a ha
        rcases (mem_insertK key x ys a).mp ha with rfl | ha
        · exact Or.inl (lt_of_not_le hxy)
        · exact hy a ha

/-- Stability of `sortK`: starting from a list with strictly increasing
ranks (e.g. positions in the original iteration order), the sorted result
is lexicographically ordered by (key, rank): ties in the key keep the
original order. -/
theorem sortK_pairwise_lex {α : Type} (key : α → ℚ) (rank : α → Nat) (l : List α)
    (h : l.Pairwise (fun a b => rank a < rank b)) :
    (sortK key l).Pairwise
      (fun a b => key a < key b ∨ (key a = key b ∧ rank a < rank b)) := by
  induction l with
  | nil => simp [sortK]
  | cons x xs ih =>
      rcases List.pairwise_cons.mp h with ⟨hx, hxs⟩
      refine pairwise_lex_insertK key rank x (sortK key xs) (ih hxs) ?_
      intro y hy
      exact hx y ((mem_sortK key xs y).mp hy)

theorem insertK_map {α β : Type} (k1 : α → ℚ) (k2 : β → ℚ) (f : α → β)
    (hk : ∀ a, k2 (f a) = k1 a) (x : α) (l : List α) :
    insertK k2 (f x) (l.map f) = (insertK k1 x l).map f := by
  induction l with
  | nil => simp [insertK]
  | cons y ys ih =>
      by_cases h : k1 x ≤ k1 y
      · simp [insertK, hk, h]
      · simp [insertK, hk, h, ih]

/-- `sortK` commutes with mapping, when the map preserves the key. -/
theorem sortK_map {α β : Type} (k1 : α → ℚ) (k2 : β → ℚ) (f : α → β)
    (hk : ∀ a, k2 (f a) = k1 a) (l : List α) :
    sortK k2 (l.map f) = (sortK k1 l).map f := by
  induction l with
  | nil => simp [sortK]
  | cons x xs ih => simp only [List.map_cons, sortK, ih, insertK_map k1 k2 f hk]

/-- Explicit enumeration of a list starting at index `i`: the model of a
pandas `RangeIndex`-indexed `Series` (`pd.Series(distances)`) as
(index label, value) pairs and of Python's `enumerate`. -/
def enumF {α : Type} : Nat → List α → List (Nat × α)
  | _, [] => []
  | i, x :: xs => (i, x) :: enumF (i + 1) xs

theorem length_enumF {α : Type} (i : Nat) (l : List α) :
    (enumF i l).length = l.length := by
  induction l generalizing i with
  | nil => rfl
  | cons x xs ih => simp [enumF, ih]

theorem enumF_map_snd {α : Type} (i : Nat) (l : List α) :
    (enumF i l).map Prod.snd = l := by
  induction l generalizing i with
  | nil => rfl
  | cons x xs ih => simp [enumF, ih]

theorem enumF_map {α β : Type} (f : α → β) (i : Nat) (l : List α) :
    enumF i (l.map f) = (enumF i l).map (fun p => (p.1, f p.2)) := by
  induction l generalizing i with
  | nil => rfl
  | cons x xs ih => simp [enumF, ih]

theorem mem_enumF {α : Type} (i : Nat) (l : List α) (p : Nat × α) :
    p ∈ enumF i l ↔ ∃ j, p.1 = i + j ∧ l.get? j = some p.2 := by
  induction l generalizing i with
  | nil => simp [enumF]
  | cons x xs ih =>
      constructor
      · intro hp
        rcases List.mem_cons.mp hp with rfl | hp
        · exact ⟨0, by simp [List.get?]⟩
        · rcases (ih (i + 1)).mp hp with ⟨j, hj1, hj2⟩
          exact ⟨j + 1, by omega, by simpa [List.get?] using hj2⟩
      · rintro ⟨j, hj1, hj2⟩
        cases j with
        | zero =>
            simp only [List.get?] at hj2
            have : p = (i, x) := by
              rcases p with ⟨p1, p2⟩
              simp_all
            simp [this, enumF]
        | succ j' =>
            simp only [List.get?] at hj2
            refine List.mem_cons_of_mem _ ((ih (i + 1)).mpr ⟨j', by omega, hj2⟩)

theorem pairwise_fst_enumF {α : Type} (i : Nat) (l : List α) :
    (enumF i l).Pairwise (fun a b => a.1 < b.1) := by
  induction l generalizing i with
  | nil => simp [enumF]
  | cons x xs ih =>
      refine List.pairwise_cons.mpr ⟨?_, ih (i + 1)⟩
      intro p hp
      rcases (mem_enumF (i + 1) xs p).mp hp with ⟨j, hj1, _⟩
      omega

/-- `AllNeighborsProvider.iterPotentialNeighbors`: yield every named tuple of
the dataset (in the row order fixed at construction by
`self.namedTuples = list(self.df.itertuples())`) whose index label differs
from the query's. -/
def AllNeighborsProvider.iterPotentialNeighbors (namedTuples : List Pt) (value : Pt) : List Pt :=
  namedTuples.filter (fun nt => nt.Index != value.Index)

/-- `TimerangeNeighborsProvider.iterPotentialNeighbors`: keep the rows whose
timestamp `time` satisfies `minTime < time < inputTime` with
`minTime = inputTime - pastTimeDelta`, then drop the query's own row.
The source also computes `maxTime = inputTime + futureTimeDelta`, but never
uses it in the filter. -/
def TimerangeNeighborsProvider.iterPotentialNeighbors (df : List Pt)
    (pastTimeDelta futureTimeDelta : ℚ) (value : Pt) : List Pt :=
  let inputTime := value.t
  let _maxTime := inputTime + futureTimeDelta
  let minTime := inputTime - pastTimeDelta
  let neighborsDf := df.filter (fun r => decide (minTime < r.t) && decide (r.t < inputTime))
  neighborsDf.filter (fun r => r.Index != value.Index)

/-- The `indexPositionDict` built by `NeighborProvider.__init__`:
`{idx: pos for pos, idx in enumerate(self.index)}`, as an association list. -/
def NeighborProvider.indexPositionDict (index : List Nat) : List (Nat × Nat) :=
  (enumF 0 index).map (fun p => (p.2, p.1))

/-- `NeighborProvider.__init__`: fail when the index has duplicates,
otherwise build the identifier-to-position map. -/
def NeighborProvider.init (index : List Nat) : Except String (List (Nat × Nat)) :=
  if ¬ index.Nodup then Except.error "Dataframe index should not contain duplicates"
  else Except.ok (NeighborProvider.indexPositionDict index)

/-- `KNearestNeighboursFinder.findNeighbors`: score every potential neighbor
with the distance metric, stable-sort by distance, truncate to
`n_neighbors`. -/
def KNearestNeighboursFinder.findNeighbors (neighborProvider : Pt → List Pt)
    (distanceMetric : Pt → Pt → ℚ) (namedTuple : Pt) (n_neighbors : Nat) : List Neighbor :=
  let result := (neighborProvider namedTuple).map
    (fun neighborTuple => Neighbor.mk neighborTuple (distanceMetric namedTuple neighborTuple))
  (sortK Neighbor.distance result).take n_neighbors

theorem filter_index_ne_length (l : List Pt) (p : Pt)
    (hnd : (l.map Pt.Index).Nodup) (hp : p ∈ l) :
    (l.filter (fun nt => nt.Index != p.Index)).length = l.length - 1 := by
  induction l with
  | nil => cases hp
  | cons x xs ih =>
      simp only [List.map_cons, List.nodup_cons, List.mem_map] at hnd
      rcases hnd with ⟨hx, hxs⟩
      by_cases hxi : x.Index = p.Index
      · have hrest : xs.filter (fun nt => nt.Index != p.Index) = xs := by
          refine List.filter_eq_self.mpr ?_
          intro a ha
          have : a.Index ≠ p.Index := by
            intro he
            exact hx ⟨a, ha, by rw [he, hxi]⟩
          simpa using this
        simp [List.filter_cons, hxi, hrest]
      · have hpxs : p ∈ xs := by
          rcases List.mem_cons.mp hp with rfl | h
          · exact absurd rfl hxi
          · exact h
        have hlen : 1 ≤ xs.length := List.length_pos_of_mem hpxs
        have := ih hxs hpxs
        have hb : (x.Index != p.Index) = true := by simpa using hxi
        rw [List.filter_cons, if_pos hb]
        simp only [List.length_cons, this]
        omega

theorem pairwise_indexOf_lt (l : List Pt) (hnd : l.Nodup) :
    l.Pairwise (fun a b => l.indexOf a < l.indexOf b) := by
  induction l with
  | nil => simp
  | cons x xs ih =>
      rcases List.nodup_cons.mp hnd with ⟨hx, hxs⟩
      refine List.pairwise_cons.mpr ⟨?_, ?_⟩
      · intro b hb
        have hbx : b ≠ x := fun he => hx (he ▸ hb)
        rw [List.indexOf_cons_self, List.indexOf_cons_ne _ (Ne.symm hbx)]
        omega
      · refine (ih hxs).imp_of_mem ?_
        intro a b ha hb hab
        have hax : a ≠ x := fun he => hx (he ▸ ha)
        have hbx : b ≠ x := fun he => hx (he ▸ hb)
        rw [List.indexOf_cons_ne _ (Ne.symm hax),
          List.indexOf_cons_ne _ (Ne.symm hbx)]
        omega

/-- C2: for every query point `q` and every `k`,
`KNearestNeighboursFinder.findNeighbors(q, k)` returns a list whose distances
are non-decreasing, whose length is `min(k, number of potential neighbors)`,
and in which ties in distance are broken by the provider's original
iteration order (the sort is stable). -/
theorem C2_plain_finder_sorted_length_stable (neighborProvider : Pt → List Pt)
    (distanceMetric : Pt → Pt → ℚ) (q : Pt) (k : Nat) :
    (KNearestNeighboursFinder.findNeighbors neighborProvider distanceMetric q k).Pairwise
      (fun a b => a.distance ≤ b.distance)
    ∧ (KNearestNeighboursFinder.findNeighbors neighborProvider distanceMetric q k).length
        = min k (neighborProvider q).length
    ∧ (((neighborProvider q).map Pt.Index).Nodup →
        (KNearestNeighboursFinder.findNeighbors neighborProvider distanceMetric q k).Pairwise
          (fun a b => a.distance = b.distance →
            (neighborProvider q).indexOf a.value < (neighborProvider q).indexOf b.value)) := by
  refine ⟨?_, ?_, ?_⟩
  · exact (sortK_pairwise_le Neighbor.distance _).sublist (List.take_sublist _ _)
  · simp [KNearestNeighboursFinder.findNeighbors, List.length_take, length_sortK]
  · intro hnd
    have hl : (neighborProvider q).Nodup := hnd.of_map
    have hpw := pairwise_indexOf_lt (neighborProvider q) hl
    have hmapped :
        ((neighborProvider q).map (fun neighborTuple =>
            Neighbor.mk neighborTuple (distanceMetric q neighborTuple))).Pairwise
          (fun a b => (neighborProvider q).indexOf a.value
            < (neighborProvider q).indexOf b.value) := by
      exact (List.pairwise_map).mpr hpw
    have hlex := sortK_pairwise_lex Neighbor.distance
      (fun nb => (neighborProvider q).indexOf nb.value) _ hmapped
    have hres := hlex.sublist (List.take_sublist k _)
    refine hres.imp ?_
    intro a b hab heq
    rcases hab with h1 | ⟨_, h2⟩
    · exact absurd heq (ne_of_lt h1)
    · exact h2

/-- C2 witness: a concrete dataset with a distance tie; the finder returns
both neighbors sorted, with the tie kept in provider order. -/
theorem C2_plain_finder_witness :
    (KNearestNeighboursFinder.findNeighbors (fun _ => [Pt.mk 1 [] 0, Pt.mk 2 [] 0])
        (fun _ _ => 1) (Pt.mk 0 [] 0) 2).Pairwise (fun a b => a.distance ≤ b.distance)
    ∧ (KNearestNeighboursFinder.findNeighbors (fun _ => [Pt.mk 1 [] 0, Pt.mk 2 [] 0])
        (fun _ _ => 1) (Pt.mk 0 [] 0) 2).length
        = min 2 [Pt.mk 1 [] 0, Pt.mk 2 [] 0].length
    ∧ (KNearestNeighboursFinder.findNeighbors (fun _ => [Pt.mk 1 [] 0, Pt.mk 2 [] 0])
        (fun _ _ => 1) (Pt.mk 0 [] 0) 2).Pairwise
          (fun a b => a.distance = b.distance →
            [Pt.mk 1 [] 0, Pt.mk 2 [] 0].indexOf a.value
              < [Pt.mk 1 [] 0, Pt.mk 2 [] 0].indexOf b.value) := by
  have h := C2_plain_finder_sorted_length_stable
    (fun _ => [Pt.mk 1 [] 0, Pt.mk 2 [] 0]) (fun _ _ => 1) (Pt.mk 0 [] 0) 2
  exact ⟨h.1, h.2.1, h.2.2 (by decide)⟩

/-- C3: for a dataset with a duplicate-free index and a point `p` of the
dataset, `AllNeighborsProvider.iterPotentialNeighbors(p)` never yields `p`,
yields exactly `N - 1` points for an `N`-row dataset, and yields them in
dataset row order (a sublist of the construction-time row list). -/
theorem C3_all_neighbors_provider (namedTuples : List Pt) (p : Pt)
    (hnd : (namedTuples.map Pt.Index).Nodup) (hp : p ∈ namedTuples) :
    p ∉ AllNeighborsProvider.iterPotentialNeighbors namedTuples p
    ∧ (AllNeighborsProvider.iterPotentialNeighbors namedTuples p).length
        = namedTuples.length - 1
    ∧ List.Sublist (AllNeighborsProvider.iterPotentialNeighbors namedTuples p) namedTuples := by
  refine ⟨?_, ?_, ?_⟩
  · intro hmem
    have := (List.mem_filter.mp hmem).2
    simp at this
  · exact filter_index_ne_length namedTuples p hnd hp
  · exact List.filter_sublist _

/-- C3 witness at a concrete two-row dataset. -/
theorem C3_all_neighbors_provider_witness :
    Pt.mk 7 [1] 0 ∉ AllNeighborsProvider.iterPotentialNeighbors
        [Pt.mk 7 [1] 0, Pt.mk 8 [2] 0] (Pt.mk 7 [1] 0)
    ∧ (AllNeighborsProvider.iterPotentialNeighbors
        [Pt.mk 7 [1] 0, Pt.mk 8 [2] 0] (Pt.mk 7 [1] 0)).length
        = [Pt.mk 7 [1] 0, Pt.mk 8 [2] 0].length - 1
    ∧ List.Sublist (AllNeighborsProvider.iterPotentialNeighbors
        [Pt.mk 7 [1] 0, Pt.mk 8 [2] 0] (Pt.mk 7 [1] 0))
        [Pt.mk 7 [1] 0, Pt.mk 8 [2] 0] :=
  C3_all_neighbors_provider [Pt.mk 7 [1] 0, Pt.mk 8 [2] 0] (Pt.mk 7 [1] 0)
    (by decide) (by decide)

/-- C4 counterexample: with query time `10` and `pastTimeDelta = 3`, a point
with timestamp exactly `10 - 3 = 7` satisfies the claim's eligibility
condition `queryTime - pastDays <= t < queryTime` (and is not the query
point), yet the source's strict filter `minTime < t` excludes it. -/
theorem C4_timerange_boundary_counterexample :
    Pt.mk 1 [] 7 ∉ TimerangeNeighborsProvider.iterPotentialNeighbors
        [Pt.mk 0 [] 10, Pt.mk 1 [] 7] 3 120 (Pt.mk 0 [] 10)
    ∧ (Pt.mk 0 [] 10).t - 3 ≤ (Pt.mk 1 [] 7).t
    ∧ (Pt.mk 1 [] 7).t < (Pt.mk 0 [] 10).t
    ∧ (Pt.mk 1 [] 7).Index ≠ (Pt.mk 0 [] 10).Index
    ∧ Pt.mk 1 [] 7 ∈ [Pt.mk 0 [] 10, Pt.mk 1 [] 7] := by
  refine ⟨?_, by norm_num, by norm_num, by decide, by decide⟩
  intro hmem
  have h1 := (List.mem_filter.mp hmem).1
  have h2 := (List.mem_filter.mp h1).2
  simp only [Bool.and_eq_true, decide_eq_true_eq] at h2
  norm_num at h2

/-- C4 amended: `TimerangeNeighborsProvider.iterPotentialNeighbors` yields
exactly the points, other than the query point itself, whose timestamp `t`
satisfies the STRICT window `queryTime - pastDays < t < queryTime` (a point
with `t` exactly equal to `queryTime - pastDays` is NOT eligible). -/
theorem C4_timerange_eligibility_amended (df : List Pt)
    (pastTimeDelta futureTimeDelta : ℚ) (value nb : Pt) :
    nb ∈ TimerangeNeighborsProvider.iterPotentialNeighbors df pastTimeDelta
        futureTimeDelta value
      ↔ nb ∈ df ∧ value.t - pastTimeDelta < nb.t ∧ nb.t < value.t
          ∧ nb.Index ≠ value.Index := by
  simp only [TimerangeNeighborsProvider.iterPotentialNeighbors, List.mem_filter,
    Bool.and_eq_true, decide_eq_true_eq, bne_iff_ne, ne_eq]
  tauto

/-- C8 helper: looking up an index label in the position dictionary built by
`NeighborProvider.__init__` returns the label's position. -/
theorem lookup_indexPositionDict_aux (index : List Nat) (hnd : index.Nodup) :
    ∀ i pos idx, index.get? pos = some idx →
      (((enumF i index).map (fun p => (p.2, p.1))).lookup idx) = some (i + pos) := by
  induction index with
  | nil => intro i pos idx h; simp [List.get?] at h
  | cons x xs ih =>
      rcases List.nodup_cons.mp hnd with ⟨hx, hxs⟩
      intro i pos idx h
      cases pos with
      | zero =>
          simp only [List.get?] at h
          injection h with h
          subst h
          simp [enumF, List.lookup]
      | succ pos' =>
          simp only [List.get?] at h
          have hidx : idx ∈ xs := List.get?_mem h
          have hne : (idx == x) = false := by
            simp only [beq_eq_false_iff_ne, ne_eq]
            intro he
            exact hx (he ▸ hidx)
          simp only [enumF, List.map_cons, List.lookup, hne]
          have := ih hxs (i + 1) pos' idx h
          rw [this]
          congr 1
          omega

/-- C8: `NeighborProvider.__init__` succeeds exactly when the dataframe index
is duplicate-free; on success it builds the identifier-to-position map
(`indexPositionDict`), which sends each index label to its row position. -/
theorem C8_neighbor_provider_init (index : List Nat) :
    ((∃ d, NeighborProvider.init index = Except.ok d) ↔ index.Nodup)
    ∧ (index.Nodup →
        NeighborProvider.init index
          = Except.ok (NeighborProvider.indexPositionDict index)
        ∧ ∀ pos idx, index.get? pos = some idx →
            (NeighborProvider.indexPositionDict index).lookup idx = some pos) := by
  constructor
  · constructor
    · rintro ⟨d, hd⟩
      by_contra hnd
      simp [NeighborProvider.init, hnd] at hd
    · intro hnd
      refine ⟨NeighborProvider.indexPositionDict index, ?_⟩
      simp [NeighborProvider.init, hnd]
  · intro hnd
    refine ⟨by simp [NeighborProvider.init, hnd], ?_⟩
    intro pos idx h
    have := lookup_indexPositionDict_aux index hnd 0 pos idx h
    simpa [NeighborProvider.indexPositionDict] using this

/-- C8 witness: a duplicate-free index yields the position map, a duplicated
index yields an error. -/
theorem C8_neighbor_provider_init_witness :
    NeighborProvider.init [3, 5]
        = Except.ok (NeighborProvider.indexPositionDict [3, 5])
    ∧ (NeighborProvider.indexPositionDict [3, 5]).lookup 5 = some 1
    ∧ ¬ ∃ d, NeighborProvider.init [7, 7] = Except.ok d := by
  refine ⟨((C8_neighbor_provider_init [3, 5]).2 (by decide)).1,
    ((C8_neighbor_provider_init [3, 5]).2 (by decide)).2 1 5 (by decide), ?_⟩
  intro h
  exact absurd ((C8_neighbor_provider_init [7, 7]).1.mp h) (by decide)

/-- `CachingKNearestNeighboursFinder.CachedSeriesDistanceMetric`: a wrapped
distance metric together with its per-query-identifier cache of full
distance series. -/
structure CachedSeriesDistanceMetric where
  distanceMetric : Pt → Pt → ℚ
  cache : List (Nat × List ℚ)

/-- `CachedSeriesDistanceMetric.getDistanceSeries`: on a cache hit return the
stored series without invoking the wrapped metric; on a miss compute the
distance to every potential neighbor, store the series under the query's
identifier, and return it.  The third component counts the invocations of
the wrapped metric's `distance` made by this call. -/
def CachedSeriesDistanceMetric.getDistanceSeries (m : CachedSeriesDistanceMetric)
    (namedTuple : Pt) (potentialNeighborValues : List Pt) :
    List ℚ × CachedSeriesDistanceMetric × Nat :=
  match m.cache.lookup namedTuple.Index with
  | some series => (series, m, 0)
  | none =>
      let distances := potentialNeighborValues.map
        (fun neighborTuple => m.distanceMetric namedTuple neighborTuple)
      (distances,
        CachedSeriesDistanceMetric.mk m.distanceMetric
          ((namedTuple.Index, distances) :: m.cache),
        potentialNeighborValues.length)

/-- The accumulation loop of `CachingKNearestNeighboursFinder.findNeighbors`:
for each (cached metric, weight) pair fetch the distance series, multiply it
by the weight (pandas `series * weight`, a fresh series), and accumulate the
elementwise sum (`summed = weighted.copy()` when `i == 0`, `summed +=
weighted` afterwards; a length mismatch between accumulated pandas series is
modelled as a failure).  Returns the summed series (`none` when the metric
list is empty, matching the source's `summedDistanceSeries = None`), the
updated cached metrics, and the total number of underlying distance
invocations. -/
def CachingKNearestNeighboursFinder.sumLoop :
    List (CachedSeriesDistanceMetric × ℚ) → Pt → List Pt → Option (List ℚ) → Nat →
      Option (List ℚ) × List (CachedSeriesDistanceMetric × ℚ) × Nat
  | [], _, _, acc, _ => (acc, [], 0)
  | mw :: rest, namedTuple, pns, acc, i =>
      let r := mw.1.getDistanceSeries namedTuple pns
      let weightedDistancesSeries := r.1.map (fun d => d * mw.2)
      let acc2 : Option (List ℚ) :=
        if i = 0 then some weightedDistancesSeries
        else
          match acc with
          | none => none
          | some s =>
              if s.length = weightedDistancesSeries.length then
                some (List.zipWith (fun a b => a + b) s weightedDistancesSeries)
              else none
      let res := CachingKNearestNeighboursFinder.sumLoop rest namedTuple pns acc2 (i + 1)
      (res.1, (r.2.1, mw.2) :: res.2.1, r.2.2 + res.2.2)

/-- `CachingKNearestNeighboursFinder.findNeighbors`: materialize the potential
neighbors once, sum the weighted per-component distance series, sort the
summed series by value (the series' positional index labels travel with the
values, as in pandas `sort_values`), and read off the first `n_neighbors`
entries, mapping each position back to its potential neighbor.  Accesses past
the end of the sorted series or the neighbor list raise in the source and are
modelled as `none`.  The result triple also carries the updated cached
metrics and the number of underlying distance invocations.

pandas `sort_values` (default kind `quicksort`, not stable) guarantees only a
value-sorted permutation; this executable definition instantiates the sort
deterministically with the stable `sortK` (see `findNeighborsWith` below for
the sort-generic definition, of which this is the `sortK Prod.snd`
instance — `findNeighbors_eq_findNeighborsWith_sortK`).  The conclusions
proved about this definition (cache state, invocation counts) do not depend
on the ordering of equal values; order-sensitive conclusions are proved
about `findNeighborsWith` for every admissible sort. -/
def CachingKNearestNeighboursFinder.findNeighbors
    (weightedDistanceMetrics : List (CachedSeriesDistanceMetric × ℚ))
    (neighborProvider : Pt → List Pt) (namedTuple : Pt) (n_neighbors : Nat) :
    Option (List Neighbor) × List (CachedSeriesDistanceMetric × ℚ) × Nat :=
  let potentialNeighbors := neighborProvider namedTuple
  let r := CachingKNearestNeighboursFinder.sumLoop weightedDistanceMetrics namedTuple
    potentialNeighbors none 0
  match r.1 with
  | none => (none, r.2.1, r.2.2)
  | some summed =>
      let sorted := sortK Prod.snd (enumF 0 summed)
      if n_neighbors ≤ sorted.length
          ∧ ∀ p ∈ sorted.take n_neighbors, p.1 < potentialNeighbors.length then
        (some ((sorted.take n_neighbors).map (fun p =>
          Neighbor.mk (potentialNeighbors.getD p.1 namedTuple) p.2)), r.2.1, r.2.2)
      else (none, r.2.1, r.2.2)

/-- For a single wrapped metric with weight 1 (the non-composite case of the
caching finder's constructor) and a cache that is either cold or consistent
with the provider, the summed series is exactly the vector of distances to
the potential neighbors. -/
theorem sumLoop_single (metric : Pt → Pt → ℚ) (cache : List (Nat × List ℚ))
    (q : Pt) (pns : List Pt)
    (hc : cache.lookup q.Index = none
        ∨ cache.lookup q.Index = some (pns.map (fun nb => metric q nb))) :
    (CachingKNearestNeighboursFinder.sumLoop
        [(CachedSeriesDistanceMetric.mk metric cache, 1)] q pns none 0).1
      = some (pns.map (fun nb => metric q nb)) := by
  rcases hc with h | h
  · simp [CachingKNearestNeighboursFinder.sumLoop,
      CachedSeriesDistanceMetric.getDistanceSeries, h, mul_one]
  · simp [CachingKNearestNeighboursFinder.sumLoop,
      CachedSeriesDistanceMetric.getDistanceSeries, h, mul_one]

/-- C1 counterexample: with one potential neighbor and `k = 2`, the plain
finder returns its single neighbor, but the caching finder's result loop
(`for i in range(n_neighbors): ... summedDistanceSeries.index[i]`) indexes
past the end of the sorted series, an IndexError in the source — so the two
finders do not return the same neighbor set for every `k`.  The sorted
series here has a single entry, so every sorted permutation coincides and
the deterministic `sortK` instantiation is exact. -/
theorem C1_cache_equivalence_counterexample :
    (CachingKNearestNeighboursFinder.findNeighbors
        [(CachedSeriesDistanceMetric.mk (fun _ _ => 1) [], 1)]
        (fun _ => [Pt.mk 1 [] 0]) (Pt.mk 0 [] 0) 2).1 = none
    ∧ (KNearestNeighboursFinder.findNeighbors (fun _ => [Pt.mk 1 [] 0])
        (fun _ _ => 1) (Pt.mk 0 [] 0) 2).length = 1 := by
  constructor
  · decide
  · decide

theorem zipWith_map_same {α β : Type} (g : β → β → β) (f1 f2 : α → β) (l : List α) :
    List.zipWith g (l.map f1) (l.map f2) = l.map (fun x => g (f1 x) (f2 x)) := by
  induction l with
  | nil => rfl
  | cons x xs ih => simp [ih]

/-- When every component metric's cache already holds its distance series for
the query (the state after an earlier query over the same provider), the
accumulation loop performs zero distance invocations, leaves every cache
unchanged, and produces the elementwise weighted sum of the cached series
under the current weights. -/
theorem sumLoop_all_hit (q : Pt) (pns : List Pt) :
    ∀ (wms : List (CachedSeriesDistanceMetric × ℚ)),
      (∀ mw ∈ wms, mw.1.cache.lookup q.Index
          = some (pns.map (fun nb => mw.1.distanceMetric q nb))) →
      ∀ (accf : Pt → ℚ) (i : Nat), i ≠ 0 →
        CachingKNearestNeighboursFinder.sumLoop wms q pns (some (pns.map accf)) i
          = (some (pns.map (fun nb => accf nb
              + (wms.map (fun mw => mw.1.distanceMetric q nb * mw.2)).sum)), wms, 0) := by
  intro wms
  induction wms with
  | nil =>
      intro _ accf i _
      simp [CachingKNearestNeighboursFinder.sumLoop]
  | cons mw rest ih =>
      intro hc accf i hi
      have hmw := hc mw (List.mem_cons_self mw rest)
      have hrest : ∀ x ∈ rest, x.1.cache.lookup q.Index
          = some (pns.map (fun nb => x.1.distanceMetric q nb)) :=
        fun x hx => hc x (List.mem_cons_of_mem mw hx)
      have htail := ih hrest
        (fun nb => accf nb + mw.1.distanceMetric q nb * mw.2) (i + 1) (by omega)
      simp only [CachingKNearestNeighboursFinder.sumLoop,
        CachedSeriesDistanceMetric.getDistanceSeries, hmw]
      simp [Function.comp_def, if_neg hi, List.map_map, zipWith_map_same, htail,
        add_assoc]

/-- C7: after a query has populated every component cache of a
linear-combination metric (the `weightedDistanceMetrics` built by the caching
finder's constructor from the shared `DistanceMetricCache`), re-querying the
same point with any — possibly changed — weights invokes no component
metric's distance function (zero invocations), leaves every component's
cached series untouched, and the combined distance series is the elementwise
weighted sum of the cached component vectors under the current weights. -/
theorem C7_weight_invariance_of_caching
    (wms : List (CachedSeriesDistanceMetric × ℚ)) (provider : Pt → List Pt)
    (q : Pt) (k : Nat) (hne : wms ≠ [])
    (hcached : ∀ mw ∈ wms, mw.1.cache.lookup q.Index
        = some ((provider q).map (fun nb => mw.1.distanceMetric q nb))) :
    (CachingKNearestNeighboursFinder.findNeighbors wms provider q k).2.1 = wms
    ∧ (CachingKNearestNeighboursFinder.findNeighbors wms provider q k).2.2 = 0
    ∧ (CachingKNearestNeighboursFinder.sumLoop wms q (provider q) none 0).1
        = some ((provider q).map (fun nb =>
            (wms.map (fun mw => mw.1.distanceMetric q nb * mw.2)).sum)) := by
  have hstep : CachingKNearestNeighboursFinder.sumLoop wms q (provider q) none 0
      = (some ((provider q).map (fun nb =>
          (wms.map (fun mw => mw.1.distanceMetric q nb * mw.2)).sum)), wms, 0) := by
    cases wms with
    | nil => exact absurd rfl hne
    | cons mw rest =>
        have hmw := hcached mw (List.mem_cons_self mw rest)
        have hrest : ∀ x ∈ rest, x.1.cache.lookup q.Index
            = some ((provider q).map (fun nb => x.1.distanceMetric q nb)) :=
          fun x hx => hcached x (List.mem_cons_of_mem mw hx)
        have htail := sumLoop_all_hit q (provider q) rest hrest
          (fun nb => mw.1.distanceMetric q nb * mw.2) 1 (by omega)
        simp only [CachingKNearestNeighboursFinder.sumLoop,
          CachedSeriesDistanceMetric.getDistanceSeries, hmw]
        simp [Function.comp_def, List.map_map, htail]
  refine ⟨?_, ?_, ?_⟩
  · simp only [CachingKNearestNeighboursFinder.findNeighbors, hstep]
    split
    · rfl
    · rfl
  · simp only [CachingKNearestNeighboursFinder.findNeighbors, hstep]
    split
    · rfl
    · rfl
  · rw [hstep]

/-- C7 witness: one cached component (series `[3]` for query identifier `0`)
re-queried with weight `5`: zero distance invocations, cache unchanged,
combined series `[15]`. -/
theorem C7_weight_invariance_witness :
    (CachingKNearestNeighboursFinder.findNeighbors
        [(CachedSeriesDistanceMetric.mk (fun _ _ => 3) [(0, [3])], 5)]
        (fun _ => [Pt.mk 1 [] 0]) (Pt.mk 0 [] 0) 1).2.1
      = [(CachedSeriesDistanceMetric.mk (fun _ _ => 3) [(0, [3])], 5)]
    ∧ (CachingKNearestNeighboursFinder.findNeighbors
        [(CachedSeriesDistanceMetric.mk (fun _ _ => 3) [(0, [3])], 5)]
        (fun _ => [Pt.mk 1 [] 0]) (Pt.mk 0 [] 0) 1).2.2 = 0
    ∧ (CachingKNearestNeighboursFinder.sumLoop
        [(CachedSeriesDistanceMetric.mk (fun _ _ => 3) [(0, [3])], 5)]
        (Pt.mk 0 [] 0) ((fun _ => [Pt.mk 1 [] 0]) (Pt.mk 0 [] 0)) none 0).1
      = some (((fun _ => [Pt.mk 1 [] 0]) (Pt.mk 0 [] 0)).map (fun nb =>
          ([(CachedSeriesDistanceMetric.mk (fun _ _ => 3) [(0, [3])], 5)].map
            (fun mw => mw.1.distanceMetric (Pt.mk 0 [] 0) nb * mw.2)).sum)) :=
  C7_weight_invariance_of_caching
    [(CachedSeriesDistanceMetric.mk (fun _ _ => 3) [(0, [3])], 5)]
    (fun _ => [Pt.mk 1 [] 0]) (Pt.mk 0 [] 0) 1 (List.cons_ne_nil _ _)
    (by
      intro mw hmw
      rcases List.mem_singleton.mp hmw with rfl
      decide)

/-- The label frame `Y` passed to `fit`: its column labels and its rows
(identifier, row of values). -/
structure YFrame where
  columns : List Nat
  rows : List (Nat × List ℚ)

/-- Pandas `X.merge(y, how="inner", left_index=True, right_index=True)` for
frames with unique indexes: keep the X-rows whose identifier also appears in
`y`, in X order, concatenating the matching y-row onto the X-row. -/
def innerMergeOnIndex (X : List (Nat × List ℚ)) (y : YFrame) : List (Nat × List ℚ) :=
  X.filterMap (fun row => (y.rows.lookup row.1).map (fun yrow => (row.1, row.2 ++ yrow)))

/-- The shared `fit` logic of `KNearestNeighboursClassificationModel._fitClassifier`
(line 214) and `KNearestNeighboursRegressionModel._fit` (line 280): assert
that `Y` has exactly one column (an AssertionError otherwise), then build the
model's dataframe as the inner join of `X` and `Y` on identifier. -/
def KNearestNeighboursModel.fit (X : List (Nat × List ℚ)) (y : YFrame) :
    Except String (List (Nat × List ℚ)) :=
  if y.columns.length = 1 then Except.ok (innerMergeOnIndex X y)
  else Except.error "Expected exactly one column in label set Y"

/-- C9: `fit(X, Y)` fails exactly when `Y` does not have one column; on
success the model dataframe is the inner join of `X` and `Y` on identifier:
its rows are precisely the X-rows whose identifier has a Y-row, each
concatenated with that Y-row. -/
theorem C9_fit_requires_single_column (X : List (Nat × List ℚ)) (y : YFrame) :
    ((∃ d, KNearestNeighboursModel.fit X y = Except.ok d) ↔ y.columns.length = 1)
    ∧ (y.columns.length = 1 →
        KNearestNeighboursModel.fit X y = Except.ok (innerMergeOnIndex X y))
    ∧ ∀ idr : Nat × List ℚ, idr ∈ innerMergeOnIndex X y
        ↔ ∃ xr yr, (idr.1, xr) ∈ X ∧ y.rows.lookup idr.1 = some yr
            ∧ idr.2 = xr ++ yr := by
  refine ⟨⟨?_, ?_⟩, ?_, ?_⟩
  · rintro ⟨d, hd⟩
    by_contra hne
    simp [KNearestNeighboursModel.fit, hne] at hd
  · intro h1
    exact ⟨innerMergeOnIndex X y, by simp [KNearestNeighboursModel.fit, h1]⟩
  · intro h1
    simp [KNearestNeighboursModel.fit, h1]
  · intro idr
    constructor
    · intro hmem
      rcases List.mem_filterMap.mp hmem with ⟨row, hrow, heq⟩
      rcases hlook : y.rows.lookup row.1 with _ | yrow
      · rw [hlook] at heq
        cases heq
      · rw [hlook] at heq
        simp only [Option.map_some'] at heq
        injection heq with heq
        refine ⟨row.2, yrow, ?_, ?_, ?_⟩
        · rw [← heq]
          simpa using hrow
        · rw [← heq]
          simpa using hlook
        · rw [← heq]
    · rintro ⟨xr, yr, hx, hlook, heq⟩
      refine List.mem_filterMap.mpr ⟨(idr.1, xr), hx, ?_⟩
      rw [hlook]
      simp [← heq]

/-- C9 witness: a one-column `Y` fits and joins on the shared identifier; a
two-column `Y` fails. -/
theorem C9_fit_requires_single_column_witness :
    KNearestNeighboursModel.fit [(1, [9]), (2, [8])] (YFrame.mk [5] [(1, [3])])
      = Except.ok (innerMergeOnIndex [(1, [9]), (2, [8])] (YFrame.mk [5] [(1, [3])]))
    ∧ ((1, [9, 3]) ∈ innerMergeOnIndex [(1, [9]), (2, [8])] (YFrame.mk [5] [(1, [3])])
        ↔ ∃ xr yr, ((1 : Nat), xr) ∈ [((1 : Nat), [(9 : ℚ)]), (2, [8])]
            ∧ (YFrame.mk [5] [(1, [3])]).rows.lookup 1 = some yr ∧ [(9 : ℚ), 3] = xr ++ yr)
    ∧ ¬ ∃ d, KNearestNeighboursModel.fit [(1, [9])] (YFrame.mk [5, 6] [(1, [3])])
        = Except.ok d := by
  refine ⟨(C9_fit_requires_single_column [(1, [9]), (2, [8])]
      (YFrame.mk [5] [(1, [3])])).2.1 (by decide),
    (C9_fit_requires_single_column [(1, [9]), (2, [8])]
      (YFrame.mk [5] [(1, [3])])).2.2 (1, [9, 3]), ?_⟩
  intro h
  have := (C9_fit_requires_single_column [(1, [9])] (YFrame.mk [5, 6] [(1, [3])])).1.mp h
  simp at this

/-- A Python positional-argument value, as passed to `findNeighbors`. -/
inductive PyVal where
  | pt (p : Pt)
  | nat (n : Nat)

/-- A Python-level positional call of
`KNearestNeighboursFinder.findNeighbors(self, namedTuple, n_neighbors=20)`:
one or two positional arguments of the right types are accepted; any other
arity raises a TypeError. -/
def KNearestNeighboursFinder.findNeighborsCall (neighborProvider : Pt → List Pt)
    (distanceMetric : Pt → Pt → ℚ) (posArgs : List PyVal) :
    Except String (List Neighbor) :=
  match posArgs with
  | [PyVal.pt namedTuple] =>
      Except.ok (KNearestNeighboursFinder.findNeighbors neighborProvider distanceMetric
        namedTuple 20)
  | [PyVal.pt namedTuple, PyVal.nat n] =>
      Except.ok (KNearestNeighboursFinder.findNeighbors neighborProvider distanceMetric
        namedTuple n)
  | _ => Except.error "TypeError: findNeighbors takes from 2 to 3 positional arguments"

/-- The state of a fitted `KNearestNeighboursRegressionModel`. -/
structure KNearestNeighboursRegressionModel where
  distanceBasedWeighting : Bool
  distanceEpsilon : ℚ
  numNeighbors : Nat
  y : List (Nat × ℚ)
  neighborProvider : Pt → List Pt
  distanceMetric : Pt → Pt → ℚ

/-- `KNearestNeighboursRegressionModel._getTarget`:
`self.y.iloc[:, 0].loc[neighbor.identifier]` (a KeyError, modelled as `none`,
when the identifier is missing from the training targets). -/
def KNearestNeighboursRegressionModel.getTarget
    (m : KNearestNeighboursRegressionModel) (neighbor : Neighbor) : Option ℚ :=
  m.y.lookup neighbor.identifier

/-- Collect `[self._getTarget(n) for n in neighbors]`, propagating a
KeyError. -/
def KNearestNeighboursRegressionModel.collectTargets
    (m : KNearestNeighboursRegressionModel) : List Neighbor → Option (List ℚ)
  | [] => some []
  | n :: ns =>
      match m.getTarget n, KNearestNeighboursRegressionModel.collectTargets m ns with
      | some t, some ts => some (t :: ts)
      | _, _ => none

/-- The aggregation of lines 292-297 of `_predictSingleInput`: the
inverse-distance weighted mean `sum(t_i * w_i) / sum(w_i)` with
`w_i = 1 / (d_i + epsilon)` when `distanceBasedWeighting` is set, the plain
mean otherwise. -/
def KNearestNeighboursRegressionModel.aggregate (distanceBasedWeighting : Bool)
    (distanceEpsilon : ℚ) (neighborTargets neighborDistances : List ℚ) : ℚ :=
  if distanceBasedWeighting then
    let neighborWeights := neighborDistances.map (fun d => 1 / (d + distanceEpsilon))
    (List.zipWith (fun t w => t * w) neighborTargets neighborWeights).sum
      / neighborWeights.sum
  else neighborTargets.sum / (neighborTargets.length : ℚ)

/-- `KNearestNeighboursRegressionModel._predictSingleInput` (line 290): call
`self.knnFinder.findNeighbors(namedTuple.Index, namedTuple, self.numNeighbors)`
— three positional arguments — then aggregate the neighbors' target values
(uniform or inverse-distance weighted mean). -/
def KNearestNeighboursRegressionModel.predictSingleInput
    (m : KNearestNeighboursRegressionModel) (namedTuple : Pt) : Except String ℚ :=
  match KNearestNeighboursFinder.findNeighborsCall m.neighborProvider m.distanceMetric
      [PyVal.nat namedTuple.Index, PyVal.pt namedTuple, PyVal.nat m.numNeighbors] with
  | Except.error e => Except.error e
  | Except.ok neighbors =>
      match KNearestNeighboursRegressionModel.collectTargets m neighbors with
      | none => Except.error "KeyError"
      | some neighborTargets =>
          Except.ok (KNearestNeighboursRegressionModel.aggregate
            m.distanceBasedWeighting m.distanceEpsilon neighborTargets
            (neighbors.map Neighbor.distance))

/-- C5 (code bug): for every fitted regression model and every input row,
`_predictSingleInput` raises a TypeError, because line 291 passes three
positional arguments (`namedTuple.Index, namedTuple, self.numNeighbors`) to
`KNearestNeighboursFinder.findNeighbors(self, namedTuple, n_neighbors=20)`.
The aggregation the claim describes is the one implemented by lines 292-297
and yields `2.5` at the spec's example (targets `[2, 4]`, distances `[1, 3]`,
epsilon `0`) and the plain mean `3` without distance weighting — but it is
unreachable. -/
theorem C5_regression_prediction_code_bug
    (m : KNearestNeighboursRegressionModel) (namedTuple : Pt) :
    KNearestNeighboursRegressionModel.predictSingleInput m namedTuple
      = Except.error "TypeError: findNeighbors takes from 2 to 3 positional arguments"
    ∧ KNearestNeighboursRegressionModel.aggregate true 0 [2, 4] [1, 3] = 5 / 2
    ∧ KNearestNeighboursRegressionModel.aggregate false 0 [2, 4] [1, 3] = 3 := by
  refine ⟨rfl, ?_, ?_⟩
  · norm_num [KNearestNeighboursRegressionModel.aggregate]
  · norm_num [KNearestNeighboursRegressionModel.aggregate]

/-- The state of a fitted `KNearestNeighboursClassificationModel` read by
`_predictClassProbabilityVectorFromNeighbors`.  The known label set
(`self._labels`) is installed by the base class `VectorClassificationModel`,
which is outside this module; it is modelled from the spec as the model's
known label set, collected from the training targets at fit time. -/
structure KNearestNeighboursClassificationModel (L : Type) where
  labels : List L
  distanceBasedWeighting : Bool
  distanceEpsilon : ℚ
  y : List (Nat × L)

/-- `KNearestNeighboursClassificationModel._getLabel`:
`self.y.iloc[:, 0].loc[neighbor.identifier]` (a KeyError, modelled as `none`,
when the identifier is missing from the training targets). -/
def KNearestNeighboursClassificationModel.getLabel {L : Type}
    (m : KNearestNeighboursClassificationModel L) (neighbor : Neighbor) : Option L :=
  m.y.lookup neighbor.identifier

/-- The vote-accumulation loop of
`_predictClassProbabilityVectorFromNeighbors`: a `defaultdict(lambda: 0)` of
per-label weight sums (modelled as a total function defaulting to 0) plus
the running total.  A zero `distance + epsilon` under distance weighting is
a ZeroDivisionError and a missing training label a KeyError; both are
modelled as `none`. -/
def KNearestNeighboursClassificationModel.voteLoop {L : Type} [DecidableEq L]
    (m : KNearestNeighboursClassificationModel L) :
    List Neighbor → (L → ℚ) → ℚ → Option ((L → ℚ) × ℚ)
  | [], weights, total => some (weights, total)
  | neigh :: rest, weights, total =>
      if m.distanceBasedWeighting ∧ neigh.distance + m.distanceEpsilon = 0 then none
      else
        let weight : ℚ :=
          if m.distanceBasedWeighting then 1 / (neigh.distance + m.distanceEpsilon)
          else 1
        match m.getLabel neigh with
        | none => none
        | some lab =>
            KNearestNeighboursClassificationModel.voteLoop m rest
              (fun l => if l = lab then weights l + weight else weights l)
              (total + weight)

/-- `_predictClassProbabilityVectorFromNeighbors`: accumulate the per-label
weights over the neighbors, then return `weights[label] / total` for every
label of the model's known label set (an empty neighbor list leaves
`total = 0`, a ZeroDivisionError modelled as `none`). -/
def KNearestNeighboursClassificationModel.predictClassProbabilityVectorFromNeighbors
    {L : Type} [DecidableEq L] (m : KNearestNeighboursClassificationModel L)
    (neighbors : List Neighbor) : Option (List ℚ) :=
  match KNearestNeighboursClassificationModel.voteLoop m neighbors (fun _ => 0) 0 with
  | none => none
  | some wt =>
      if wt.2 = 0 then none
      else some (m.labels.map (fun label => wt.1 label / wt.2))

/-- The weight the classifier gives a single neighbor: `1` under majority
vote, `1 / (distance + epsilon)` under distance-based weighting. -/
def neighborWeight {L : Type} (m : KNearestNeighboursClassificationModel L)
    (n : Neighbor) : ℚ :=
  if m.distanceBasedWeighting then 1 / (n.distance + m.distanceEpsilon) else 1

/-- The summed weight of the neighbors voting for class `c`. -/
def classWeightSum {L : Type} [DecidableEq L]
    (m : KNearestNeighboursClassificationModel L) (neighbors : List Neighbor)
    (c : L) : ℚ :=
  ((neighbors.filter (fun n => m.getLabel n == some c)).map (neighborWeight m)).sum

/-- The summed weight of all neighbors. -/
def totalWeight {L : Type} (m : KNearestNeighboursClassificationModel L)
    (neighbors : List Neighbor) : ℚ :=
  (neighbors.map (neighborWeight m)).sum

theorem sum_map_add_split {α : Type} (f g : α → ℚ) (l : List α) :
    (l.map (fun x => f x + g x)).sum = (l.map f).sum + (l.map g).sum := by
  induction l with
  | nil => simp
  | cons x xs ih =>
      simp only [List.map_cons, List.sum_cons, ih]
      ring

theorem sum_map_div {α : Type} (f : α → ℚ) (t : ℚ) (l : List α) :
    (l.map (fun x => f x / t)).sum = (l.map f).sum / t := by
  induction l with
  | nil => simp
  | cons x xs ih => simp [ih, add_div]

theorem sum_map_ite_eq_of_nodup {L : Type} [DecidableEq L] (labels : List L)
    (lab : L) (w : ℚ) (hnd : labels.Nodup) (hmem : lab ∈ labels) :
    (labels.map (fun c => if lab = c then w else 0)).sum = w := by
  induction labels with
  | nil => cases hmem
  | cons x xs ih =>
      rcases List.nodup_cons.mp hnd with ⟨hx, hxs⟩
      by_cases hl : lab = x
      · subst hl
        have hz : (xs.map (fun c => if lab = c then w else 0)).sum = 0 := by
          refine List.sum_eq_zero ?_
          intro v hv
          rcases List.mem_map.mp hv with ⟨c, hc, rfl⟩
          have : lab ≠ c := fun he => hx (he ▸ hc)
          simp [this]
        simp [hz]
      · have hmem2 : lab ∈ xs := by
          rcases List.mem_cons.mp hmem with rfl | h
          · exact absurd rfl hl
          · exact h
        simp [hl, ih hxs hmem2]

theorem voteLoop_spec {L : Type} [DecidableEq L]
    (m : KNearestNeighboursClassificationModel L) :
    ∀ (neighbors : List Neighbor) (w0 : L → ℚ) (t0 : ℚ),
      (∀ n ∈ neighbors,
        (m.distanceBasedWeighting = true → 0 < n.distance + m.distanceEpsilon)
          ∧ (m.getLabel n).isSome = true) →
      ∃ wF tF,
        KNearestNeighboursClassificationModel.voteLoop m neighbors w0 t0
            = some (wF, tF)
        ∧ (∀ c, wF c = w0 c + classWeightSum m neighbors c)
        ∧ tF = t0 + totalWeight m neighbors := by
  intro neighbors
  induction neighbors with
  | nil =>
      intro w0 t0 _
      refine ⟨w0, t0, rfl, ?_, ?_⟩
      · intro c
        simp [classWeightSum]
      · simp [totalWeight]
  | cons n ns ih =>
      intro w0 t0 hcond
      rcases hcond n (List.mem_cons_self n ns) with ⟨hposn, hsomen⟩
      rcases Option.isSome_iff_exists.mp hsomen with ⟨lab, hlab⟩
      have hguard : ¬ (m.distanceBasedWeighting ∧ n.distance + m.distanceEpsilon = 0) := by
        rintro ⟨hb, hz⟩
        exact absurd hz (ne_of_gt (hposn hb))
      have hw : (if m.distanceBasedWeighting then 1 / (n.distance + m.distanceEpsilon)
          else 1) = neighborWeight m n := rfl
      rcases ih (fun l => if l = lab then w0 l + neighborWeight m n else w0 l)
          (t0 + neighborWeight m n)
          (fun x hx => hcond x (List.mem_cons_of_mem n hx)) with
        ⟨wF, tF, hloop, hwF, htF⟩
      refine ⟨wF, tF, ?_, ?_, ?_⟩
      · simp only [KNearestNeighboursClassificationModel.voteLoop, if_neg hguard,
          hlab, hw]
        exact hloop
      · intro c
        have hsplit : classWeightSum m (n :: ns) c
            = (if lab = c then neighborWeight m n else 0)
              + classWeightSum m ns c := by
          by_cases hc : lab = c
          · subst hc
            simp [classWeightSum, List.filter_cons, hlab]
          · simp [classWeightSum, List.filter_cons, hlab, hc]
        rw [hwF c, hsplit]
        by_cases hc : c = lab
        · subst hc
          simp [add_assoc]
        · have hc2 : ¬ lab = c := fun he => hc he.symm
          simp [hc, hc2]
      · rw [htF]
        simp [totalWeight, add_assoc]

theorem sum_classWeightSum {L : Type} [DecidableEq L]
    (m : KNearestNeighboursClassificationModel L) :
    ∀ (neighbors : List Neighbor), m.labels.Nodup →
      (∀ n ∈ neighbors, ∃ lab ∈ m.labels, m.getLabel n = some lab) →
      (m.labels.map (fun c => classWeightSum m neighbors c)).sum
        = totalWeight m neighbors := by
  intro neighbors
  induction neighbors with
  | nil =>
      intro _ _
      have : ∀ c ∈ m.labels, classWeightSum m [] c = 0 := by
        intro c _
        simp [classWeightSum]
      rw [List.sum_eq_zero]
      · simp [totalWeight]
      · intro v hv
        rcases List.mem_map.mp hv with ⟨c, hc, rfl⟩
        exact this c hc
  | cons n ns ih =>
      intro hnd hlab
      rcases hlab n (List.mem_cons_self n ns) with ⟨lab, hmem, hsome⟩
      have hsplit : ∀ c, classWeightSum m (n :: ns) c
          = (if lab = c then neighborWeight m n else 0) + classWeightSum m ns c := by
        intro c
        by_cases hc : lab = c
        · subst hc
          simp [classWeightSum, List.filter_cons, hsome]
        · simp [classWeightSum, List.filter_cons, hsome, hc]
      rw [List.map_congr_left (fun c _ => hsplit c), sum_map_add_split,
        sum_map_ite_eq_of_nodup m.labels lab (neighborWeight m n) hnd hmem,
        ih hnd (fun x hx => hlab x (List.mem_cons_of_mem n hx))]
      simp [totalWeight]

/-- C6: for a fitted classification model and a query with at least one
neighbor found, each of whose identifiers has a training label lying in the
model's known label set (which holds after fit, where the label set is
collected from the training targets), the predicted vector assigns every
class the probability `weight_sum(class) / total_weight_sum` — with weight
`1` per neighbor under majority vote and `1 / (distance + epsilon)` under
distance-based weighting — classes receiving zero votes get probability 0,
and the probabilities over the label set sum to 1. -/
theorem C6_classification_probabilities {L : Type} [DecidableEq L]
    (m : KNearestNeighboursClassificationModel L) (neighbors : List Neighbor)
    (hne : neighbors ≠ [])
    (hnd : m.labels.Nodup)
    (hlab : ∀ n ∈ neighbors, ∃ lab ∈ m.labels, m.getLabel n = some lab)
    (hpos : m.distanceBasedWeighting = true →
        ∀ n ∈ neighbors, 0 < n.distance + m.distanceEpsilon) :
    KNearestNeighboursClassificationModel.predictClassProbabilityVectorFromNeighbors
        m neighbors
      = some (m.labels.map (fun c =>
          classWeightSum m neighbors c / totalWeight m neighbors))
    ∧ (m.labels.map (fun c =>
          classWeightSum m neighbors c / totalWeight m neighbors)).sum = 1
    ∧ ∀ c, neighbors.filter (fun n => m.getLabel n == some c) = [] →
        classWeightSum m neighbors c / totalWeight m neighbors = 0 := by
  have hw : ∀ n ∈ neighbors, 0 < neighborWeight m n := by
    intro n hn
    by_cases hb : m.distanceBasedWeighting = true
    · have := hpos hb n hn
      simp only [neighborWeight, hb, if_true]
      positivity
    · simp only [neighborWeight, hb, if_false]
      norm_num
  have htw : 0 < totalWeight m neighbors := by
    refine List.sum_pos _ ?_ ?_
    · intro v hv
      rcases List.mem_map.mp hv with ⟨n, hn, rfl⟩
      exact hw n hn
    · simp only [ne_eq, List.map_eq_nil_iff]
      exact hne
  have htw0 : totalWeight m neighbors ≠ 0 := ne_of_gt htw
  rcases voteLoop_spec m neighbors (fun _ => 0) 0
      (fun n hn => ⟨fun hb => hpos hb n hn,
        by
          rcases hlab n hn with ⟨lab, _, hsome⟩
          simp [hsome]⟩) with ⟨wF, tF, hloop, hwF, htF⟩
  have htFv : tF = totalWeight m neighbors := by
    rw [htF]
    ring
  have hwFv : ∀ c, wF c = classWeightSum m neighbors c := by
    intro c
    rw [hwF c]
    ring
  refine ⟨?_, ?_, ?_⟩
  · simp only [KNearestNeighboursClassificationModel.predictClassProbabilityVectorFromNeighbors,
      hloop]
    rw [if_neg (by rw [htFv]; exact htw0)]
    refine congrArg some (List.map_congr_left ?_)
    intro c _
    rw [hwFv c, htFv]
  · rw [sum_map_div, sum_classWeightSum m neighbors hnd hlab, div_self htw0]
  · intro c hempty
    have : classWeightSum m neighbors c = 0 := by
      simp [classWeightSum, hempty]
    rw [this, zero_div]

/-- C6 witness: two neighbors with labels `0` and `1` under majority vote:
probabilities `[1/2, 1/2]`, summing to 1. -/
theorem C6_classification_probabilities_witness :
    KNearestNeighboursClassificationModel.predictClassProbabilityVectorFromNeighbors
        (KNearestNeighboursClassificationModel.mk [0, 1] false 0 [(1, 0), (2, 1)])
        [Neighbor.mk (Pt.mk 1 [] 0) 1, Neighbor.mk (Pt.mk 2 [] 0) 2]
      = some (([0, 1] : List Nat).map (fun c =>
          classWeightSum
            (KNearestNeighboursClassificationModel.mk [0, 1] false 0 [(1, 0), (2, 1)])
            [Neighbor.mk (Pt.mk 1 [] 0) 1, Neighbor.mk (Pt.mk 2 [] 0) 2] c
          / totalWeight
            (KNearestNeighboursClassificationModel.mk [0, 1] false 0 [(1, 0), (2, 1)])
            [Neighbor.mk (Pt.mk 1 [] 0) 1, Neighbor.mk (Pt.mk 2 [] 0) 2]))
    ∧ (([0, 1] : List Nat).map (fun c =>
          classWeightSum
            (KNearestNeighboursClassificationModel.mk [0, 1] false 0 [(1, 0), (2, 1)])
            [Neighbor.mk (Pt.mk 1 [] 0) 1, Neighbor.mk (Pt.mk 2 [] 0) 2] c
          / totalWeight
            (KNearestNeighboursClassificationModel.mk [0, 1] false 0 [(1, 0), (2, 1)])
            [Neighbor.mk (Pt.mk 1 [] 0) 1, Neighbor.mk (Pt.mk 2 [] 0) 2])).sum = 1 :=
  have h := C6_classification_probabilities
    (KNearestNeighboursClassificationModel.mk [0, 1] false 0 [(1, 0), (2, 1)])
    [Neighbor.mk (Pt.mk 1 [] 0) 1, Neighbor.mk (Pt.mk 2 [] 0) 2]
    (List.cons_ne_nil _ _) (by decide) (by decide) (by decide)
  ⟨h.1, h.2.1⟩

/-- A pandas `Series` as stored on the heap: (index label, value) pairs. -/
abbrev Series := List (Nat × ℚ)

/-- The heap of live series objects; a reference is a position into it. -/
abbrev Store := List Series

/-- Dereference a series object. -/
def Store.read (st : Store) (r : Nat) : Series := st.getD r []

/-- Mutate a series object in place. -/
def Store.write (st : Store) (r : Nat) (v : Series) : Store := st.set r v

/-- Allocate a fresh series object, returning the new heap and the
reference. -/
def Store.alloc (st : Store) (v : Series) : Store × Nat := (st ++ [v], st.length)

theorem Store.read_alloc_lt (st : Store) (v : Series) (r : Nat)
    (h : r < st.length) : (st.alloc v).1.read r = st.read r := by
  simp only [Store.alloc, Store.read, List.getD_eq_getElem?_getD,
    List.getElem?_append_left h]

theorem Store.length_alloc (st : Store) (v : Series) :
    (st.alloc v).1.length = st.length + 1 := by
  simp [Store.alloc]

theorem Store.read_write_ne (st : Store) (r r2 : Nat) (v : Series)
    (h : r ≠ r2) : (st.write r2 v).read r = st.read r := by
  simp [Store.write, Store.read, List.getD_eq_getElem?_getD,
    List.getElem?_set_ne (Ne.symm h)]

theorem Store.length_write (st : Store) (r : Nat) (v : Series) :
    (st.write r v).length = st.length := List.length_set st r v

/-- `CachedSeriesDistanceMetric` at the object level: the cache maps a query
identifier to the heap reference of the stored series; a hit returns the
cached object itself, so an in-place mutation through the returned reference
would corrupt the cache. -/
structure CachedSeriesDistanceMetricH where
  distanceMetric : Pt → Pt → ℚ
  cache : List (Nat × Nat)

/-- Object-level `getDistanceSeries`: on a hit return the reference of the
cached series unchanged; on a miss compute `pd.Series(distances)` (positions
as index labels), allocate it, and record the reference under the query's
identifier. -/
def CachedSeriesDistanceMetricH.getDistanceSeries (m : CachedSeriesDistanceMetricH)
    (st : Store) (namedTuple : Pt) (potentialNeighborValues : List Pt) :
    Nat × CachedSeriesDistanceMetricH × Store :=
  match m.cache.lookup namedTuple.Index with
  | some r => (r, m, st)
  | none =>
      let distances := potentialNeighborValues.map
        (fun neighborTuple => m.distanceMetric namedTuple neighborTuple)
      let a := st.alloc (enumF 0 distances)
      (a.2,
        CachedSeriesDistanceMetricH.mk m.distanceMetric
          ((namedTuple.Index, a.2) :: m.cache),
        a.1)

/-- pandas `+=` on two series with identical positional indexes. -/
def seriesAdd (s1 s2 : Series) : Series :=
  List.zipWith (fun a b => (a.1, a.2 + b.2)) s1 s2

/-- One accumulation step's effect on the heap: after the (possibly cached)
series is fetched, `weighted = series * weight` allocates a fresh series; on
the first iteration (`summed` not yet set) `summed = weighted.copy()`
allocates another fresh series, afterwards `summed += weighted` mutates the
existing summed series in place through its reference.  Returns the new heap
and the reference of the summed series. -/
def CachingKNearestNeighboursFinder.loopStepH (mw : CachedSeriesDistanceMetricH × ℚ)
    (st : Store) (namedTuple : Pt) (pns : List Pt) (acc : Option Nat) : Store × Nat :=
  let g := mw.1.getDistanceSeries st namedTuple pns
  let aw := g.2.2.alloc ((g.2.2.read g.1).map (fun p => (p.1, p.2 * mw.2)))
  match acc with
  | none => aw.1.alloc (aw.1.read aw.2)
  | some rs => (aw.1.write rs (seriesAdd (aw.1.read rs) (aw.1.read aw.2)), rs)

/-- Object-level accumulation loop of the caching finder's `findNeighbors`:
apply `loopStepH` for each (cached metric, weight) pair, threading the heap
and the summed-series reference; also thread the cached-metric updates made
by `getDistanceSeries`. -/
def CachingKNearestNeighboursFinder.findNeighborsLoopH :
    List (CachedSeriesDistanceMetricH × ℚ) → Store → Pt → List Pt → Option Nat →
      Option Nat × List (CachedSeriesDistanceMetricH × ℚ) × Store
  | [], st, _, _, acc => (acc, [], st)
  | mw :: rest, st, namedTuple, pns, acc =>
      let g := mw.1.getDistanceSeries st namedTuple pns
      let next := CachingKNearestNeighboursFinder.loopStepH mw st namedTuple pns acc
      let res := CachingKNearestNeighboursFinder.findNeighborsLoopH rest next.1
        namedTuple pns (some next.2)
      (res.1, (g.2.1, mw.2) :: res.2.1, res.2.2)

/-- Object-level `CachingKNearestNeighboursFinder.findNeighbors`: run the
accumulation loop, sort the summed series in place
(`sort_values(ascending=True, inplace=True)` mutates the summed object — a
fresh copy, never a cached series), and read off the first `n_neighbors`
entries. -/
def CachingKNearestNeighboursFinder.findNeighborsH
    (weightedDistanceMetrics : List (CachedSeriesDistanceMetricH × ℚ))
    (st : Store) (neighborProvider : Pt → List Pt) (namedTuple : Pt)
    (n_neighbors : Nat) :
    Option (List Neighbor) × List (CachedSeriesDistanceMetricH × ℚ) × Store :=
  let potentialNeighbors := neighborProvider namedTuple
  let r := CachingKNearestNeighboursFinder.findNeighborsLoopH weightedDistanceMetrics
    st namedTuple potentialNeighbors none
  match r.1 with
  | none => (none, r.2.1, r.2.2)
  | some rs =>
      let st2 := r.2.2.write rs (sortK Prod.snd (r.2.2.read rs))
      let sorted := st2.read rs
      if n_neighbors ≤ sorted.length
          ∧ ∀ p ∈ sorted.take n_neighbors, p.1 < potentialNeighbors.length then
        (some ((sorted.take n_neighbors).map (fun p =>
          Neighbor.mk (potentialNeighbors.getD p.1 namedTuple) p.2)), r.2.1, st2)
      else (none, r.2.1, st2)

theorem getDistanceSeriesH_store (m : CachedSeriesDistanceMetricH) (st : Store)
    (q : Pt) (pns : List Pt) :
    st.length ≤ (m.getDistanceSeries st q pns).2.2.length
    ∧ ∀ r, r < st.length →
        (m.getDistanceSeries st q pns).2.2.read r = st.read r := by
  cases hlk : m.cache.lookup q.Index with
  | some r0 =>
      simp [CachedSeriesDistanceMetricH.getDistanceSeries, hlk]
  | none =>
      simp only [CachedSeriesDistanceMetricH.getDistanceSeries, hlk]
      refine ⟨?_, ?_⟩
      · rw [Store.length_alloc]
        omega
      · intro r hr
        exact Store.read_alloc_lt st _ r hr


theorem loopStepH_store (B : Nat) (mw : CachedSeriesDistanceMetricH × ℚ)
    (st : Store) (namedTuple : Pt) (pns : List Pt) (acc : Option Nat)
    (hB : B ≤ st.length) (hacc : ∀ rs, acc = some rs → B ≤ rs) :
    B ≤ (CachingKNearestNeighboursFinder.loopStepH mw st namedTuple pns acc).1.length
    ∧ (∀ r, r < B →
        (CachingKNearestNeighboursFinder.loopStepH mw st namedTuple pns acc).1.read r
          = st.read r)
    ∧ B ≤ (CachingKNearestNeighboursFinder.loopStepH mw st namedTuple pns acc).2 := by
  obtain ⟨hg1, hg2⟩ := getDistanceSeriesH_store mw.1 st namedTuple pns
  cases acc with
  | none =>
      simp only [CachingKNearestNeighboursFinder.loopStepH]
      refine ⟨?_, ?_, ?_⟩
      · rw [Store.length_alloc, Store.length_alloc]
        omega
      · intro r hr
        rw [Store.read_alloc_lt _ _ _ (by simp [Store.alloc]; omega),
          Store.read_alloc_lt _ _ _ (by omega), hg2 r (by omega)]
      · simp [Store.alloc]
        omega
  | some rs =>
      have hrs := hacc rs rfl
      simp only [CachingKNearestNeighboursFinder.loopStepH]
      refine ⟨?_, ?_, ?_⟩
      · rw [Store.length_write, Store.length_alloc]
        omega
      · intro r hr
        rw [Store.read_write_ne _ _ _ _ (by omega),
          Store.read_alloc_lt _ _ _ (by omega), hg2 r (by omega)]
      · exact hrs

theorem findNeighborsLoopH_frame (namedTuple : Pt) (pns : List Pt) (B : Nat) :
    ∀ (wms : List (CachedSeriesDistanceMetricH × ℚ)) (st : Store) (acc : Option Nat),
      B ≤ st.length → (∀ rs, acc = some rs → B ≤ rs) →
      B ≤ (CachingKNearestNeighboursFinder.findNeighborsLoopH wms st namedTuple pns
          acc).2.2.length
      ∧ (∀ r, r < B →
          (CachingKNearestNeighboursFinder.findNeighborsLoopH wms st namedTuple pns
            acc).2.2.read r = st.read r)
      ∧ (∀ rs, (CachingKNearestNeighboursFinder.findNeighborsLoopH wms st namedTuple
          pns acc).1 = some rs → B ≤ rs) := by
  intro wms
  induction wms with
  | nil =>
      intro st acc hB hacc
      exact ⟨hB, fun r _ => rfl, hacc⟩
  | cons mw rest ih =>
      intro st acc hB hacc
      obtain ⟨hs1, hs2, hs3⟩ := loopStepH_store B mw st namedTuple pns acc hB hacc
      obtain ⟨ih1, ih2, ih3⟩ := ih
        (CachingKNearestNeighboursFinder.loopStepH mw st namedTuple pns acc).1
        (some (CachingKNearestNeighboursFinder.loopStepH mw st namedTuple pns acc).2)
        hs1
        (by
          rintro rs h
          injection h with h
          omega)
      simp only [CachingKNearestNeighboursFinder.findNeighborsLoopH]
      refine ⟨ih1, ?_, ih3⟩
      intro r hr
      rw [ih2 r hr, hs2 r hr]

/-- C10: a `CachingKNearestNeighboursFinder.findNeighbors` call never
modifies any pre-existing series object on the heap — in particular, every
per-query distance series stored in any `CachedSeriesDistanceMetric` cache
before the call is left unchanged: the weighting (`series * weight`) and the
first accumulation (`weighted.copy()`) operate on freshly allocated series,
so the in-place `summed += weighted` and
`sort_values(ascending=True, inplace=True)` mutate only series allocated
within the call. -/
theorem C10_cached_series_unchanged
    (wms : List (CachedSeriesDistanceMetricH × ℚ)) (st : Store)
    (neighborProvider : Pt → List Pt) (q : Pt) (k : Nat) (r : Nat)
    (hr : r < st.length) :
    (CachingKNearestNeighboursFinder.findNeighborsH wms st neighborProvider q
        k).2.2.read r
      = st.read r := by
  obtain ⟨hf1, hf2, hf3⟩ := findNeighborsLoopH_frame q (neighborProvider q) st.length
    wms st none (le_refl _) (by rintro rs ⟨⟩)
  simp only [CachingKNearestNeighboursFinder.findNeighborsH]
  cases hres : (CachingKNearestNeighboursFinder.findNeighborsLoopH wms st q
      (neighborProvider q) none).1 with
  | none =>
      simp only [hres]
      exact hf2 r hr
  | some rs =>
      have hrs := hf3 rs hres
      simp only [hres]
      have hwr : ∀ v, ((CachingKNearestNeighboursFinder.findNeighborsLoopH wms st q
          (neighborProvider q) none).2.2.write rs v).read r
            = st.read r := by
        intro v
        rw [Store.read_write_ne _ _ _ _ (by omega), hf2 r hr]
      split
      · exact hwr _
      · exact hwr _

/-- C10 witness: a heap holding one cached series (reference 0, cached for
query identifier 0) reads back unchanged after a full `findNeighbors` call
that uses it. -/
theorem C10_cached_series_unchanged_witness :
    (CachingKNearestNeighboursFinder.findNeighborsH
        [(CachedSeriesDistanceMetricH.mk (fun _ _ => 1) [(0, 0)], 2)]
        [[(0, 5)]] (fun _ => [Pt.mk 1 [] 0]) (Pt.mk 0 [] 0) 1).2.2.read 0
      = Store.read [[(0, 5)]] 0 :=
  C10_cached_series_unchanged
    [(CachedSeriesDistanceMetricH.mk (fun _ _ => 1) [(0, 0)], 2)]
    [[(0, 5)]] (fun _ => [Pt.mk 1 [] 0]) (Pt.mk 0 [] 0) 1 0 (by decide)

theorem get?_map_local {α β : Type} (f : α → β) (l : List α) (n : Nat) :
    (l.map f).get? n = (l.get? n).map f := by
  induction l generalizing n with
  | nil => simp [List.get?]
  | cons x xs ih => cases n <;> simp [List.get?, ih]

/-- Two key-sorted lists with permutation-equal key multisets have equal key
sequences: the value sequence of a sorted series does not depend on the sort
algorithm. -/
theorem map_key_eq_of_perm_of_sorted {α β : Type} (k1 : α → ℚ) (k2 : β → ℚ)
    (l1 : List α) (l2 : List β)
    (hp : List.Perm (l1.map k1) (l2.map k2))
    (h1 : l1.Pairwise (fun a b => k1 a ≤ k1 b))
    (h2 : l2.Pairwise (fun a b => k2 a ≤ k2 b)) :
    l1.map k1 = l2.map k2 := by
  have hs1 : (l1.map k1).Pairwise (fun a b : ℚ => a ≤ b) := List.pairwise_map.mpr h1
  have hs2 : (l2.map k2).Pairwise (fun a b : ℚ => a ≤ b) := List.pairwise_map.mpr h2
  exact List.eq_of_perm_of_sorted hp hs1 hs2

/-- Two permutation-equal lists that are both strictly sorted by the same key
are equal: with pairwise-distinct keys the sort algorithm does not matter at
all. -/
theorem eq_of_perm_of_sorted_strictKey {α : Type} (key : α → ℚ) (l1 l2 : List α)
    (hp : List.Perm l1 l2)
    (h1 : l1.Pairwise (fun a b => key a < key b))
    (h2 : l2.Pairwise (fun a b => key a < key b)) :
    l1 = l2 := by
  haveI : IsAntisymm α (fun a b => key a < key b) :=
    ⟨fun a b ha hb => absurd hb (lt_asymm ha)⟩
  exact List.eq_of_perm_of_sorted hp h1 h2

theorem pairwise_snd_enumF {α : Type} (R : α → α → Prop) (i : Nat) (l : List α)
    (h : l.Pairwise R) : (enumF i l).Pairwise (fun a b => R a.2 b.2) := by
  induction l generalizing i with
  | nil => simp [enumF]
  | cons x xs ih =>
      rcases List.pairwise_cons.mp h with ⟨hx, hxs⟩
      simp only [enumF]
      refine List.pairwise_cons.mpr ⟨?_, ih (i + 1) hxs⟩
      intro p hp
      rcases (mem_enumF (i + 1) xs p).mp hp with ⟨j, _, hj⟩
      exact hx p.2 (List.get?_mem hj)

/-- A distance metric as the caching finder's constructor inspects it (line
121): either an atomic metric or a `LinearCombinationDistanceMetric`, i.e.
an ordered list of (weight, metric) pairs (`distanceMetric.metrics`). -/
inductive DistanceMetricSpec where
  | atomic (f : Pt → Pt → ℚ)
  | linearCombination (metrics : List (ℚ × (Pt → Pt → ℚ)))

/-- Modelled from the spec: the `distance` of a
`LinearCombinationDistanceMetric` is `sum(weight_i * metric_i.distance(a, b))`
— the class itself lives in the `distance_metric` module, which is not among
the sources; an atomic metric applies its function. -/
def DistanceMetricSpec.distance : DistanceMetricSpec → Pt → Pt → ℚ
  | DistanceMetricSpec.atomic f, a, b => f a b
  | DistanceMetricSpec.linearCombination metrics, a, b =>
      (metrics.map (fun wm => wm.1 * wm.2 a b)).sum

/-- `CachingKNearestNeighboursFinder.__init__` (lines 121-124): pair each
component of a linear combination with its weight and its cached metric
obtained from the shared `DistanceMetricCache` (`cacheOf` models
`cache.getCachedMetric`, which returns the per-component series cache); wrap
any other metric as a single component with weight 1. -/
def CachingKNearestNeighboursFinder.init (dm : DistanceMetricSpec)
    (cacheOf : (Pt → Pt → ℚ) → List (Nat × List ℚ)) :
    List (CachedSeriesDistanceMetric × ℚ) :=
  match dm with
  | DistanceMetricSpec.linearCombination metrics =>
      metrics.map (fun wm => (CachedSeriesDistanceMetric.mk wm.2 (cacheOf wm.2), wm.1))
  | DistanceMetricSpec.atomic f => [(CachedSeriesDistanceMetric.mk f (cacheOf f), 1)]

/-- The weighted sum the caching finder accumulates over the constructor's
components equals the metric's own combined distance. -/
theorem init_weighted_sum (dm : DistanceMetricSpec)
    (cacheOf : (Pt → Pt → ℚ) → List (Nat × List ℚ)) (a b : Pt) :
    ((CachingKNearestNeighboursFinder.init dm cacheOf).map
        (fun mw => mw.1.distanceMetric a b * mw.2)).sum
      = DistanceMetricSpec.distance dm a b := by
  cases dm with
  | atomic f =>
      simp [CachingKNearestNeighboursFinder.init, DistanceMetricSpec.distance]
  | linearCombination metrics =>
      simp [CachingKNearestNeighboursFinder.init, DistanceMetricSpec.distance,
        List.map_map, Function.comp_def, mul_comm]

/-- `CachingKNearestNeighboursFinder.findNeighbors`, generic in the sorting
routine: pandas `sort_values(ascending=True)` guarantees only a value-sorted
permutation of the series (its default kind, quicksort, is not stable and
leaves the order of equal values unspecified), so the sort is a parameter,
constrained in the theorems to produce a sorted permutation.  The body is
otherwise that of `findNeighbors`, which instantiates the sort with the
deterministic stable `sortK`. -/
def CachingKNearestNeighboursFinder.findNeighborsWith
    (sortValues : List (Nat × ℚ) → List (Nat × ℚ))
    (weightedDistanceMetrics : List (CachedSeriesDistanceMetric × ℚ))
    (neighborProvider : Pt → List Pt) (namedTuple : Pt) (n_neighbors : Nat) :
    Option (List Neighbor) × List (CachedSeriesDistanceMetric × ℚ) × Nat :=
  let potentialNeighbors := neighborProvider namedTuple
  let r := CachingKNearestNeighboursFinder.sumLoop weightedDistanceMetrics namedTuple
    potentialNeighbors none 0
  match r.1 with
  | none => (none, r.2.1, r.2.2)
  | some summed =>
      let sorted := sortValues (enumF 0 summed)
      if n_neighbors ≤ sorted.length
          ∧ ∀ p ∈ sorted.take n_neighbors, p.1 < potentialNeighbors.length then
        (some ((sorted.take n_neighbors).map (fun p =>
          Neighbor.mk (potentialNeighbors.getD p.1 namedTuple) p.2)), r.2.1, r.2.2)
      else (none, r.2.1, r.2.2)

/-- `findNeighbors` is the `sortK`-instantiation of the sort-generic
finder. -/
theorem findNeighbors_eq_findNeighborsWith_sortK
    (weightedDistanceMetrics : List (CachedSeriesDistanceMetric × ℚ))
    (neighborProvider : Pt → List Pt) (namedTuple : Pt) (n_neighbors : Nat) :
    CachingKNearestNeighboursFinder.findNeighbors weightedDistanceMetrics
        neighborProvider namedTuple n_neighbors
      = CachingKNearestNeighboursFinder.findNeighborsWith (sortK Prod.snd)
          weightedDistanceMetrics neighborProvider namedTuple n_neighbors := rfl

/-- With a cache that is cold or holds the provider-consistent series for the
query, `getDistanceSeries` returns the component's distance vector. -/
theorem getDistanceSeries_fst_consistent (m : CachedSeriesDistanceMetric)
    (q : Pt) (pns : List Pt)
    (hc : m.cache.lookup q.Index = none
        ∨ m.cache.lookup q.Index = some (pns.map (fun nb => m.distanceMetric q nb))) :
    (m.getDistanceSeries q pns).1 = pns.map (fun nb => m.distanceMetric q nb) := by
  rcases hc with h | h <;>
    simp [CachedSeriesDistanceMetric.getDistanceSeries, h]

/-- With every component cache cold or provider-consistent, the accumulation
loop's summed series is the elementwise weighted sum of the component
distance vectors. -/
theorem sumLoop_consistent (q : Pt) (pns : List Pt) :
    ∀ (wms : List (CachedSeriesDistanceMetric × ℚ)),
      (∀ mw ∈ wms, mw.1.cache.lookup q.Index = none
          ∨ mw.1.cache.lookup q.Index
              = some (pns.map (fun nb => mw.1.distanceMetric q nb))) →
      ∀ (accf : Pt → ℚ) (i : Nat), i ≠ 0 →
        (CachingKNearestNeighboursFinder.sumLoop wms q pns (some (pns.map accf)) i).1
          = some (pns.map (fun nb => accf nb
              + (wms.map (fun mw => mw.1.distanceMetric q nb * mw.2)).sum)) := by
  intro wms
  induction wms with
  | nil =>
      intro _ accf i _
      simp [CachingKNearestNeighboursFinder.sumLoop]
  | cons mw rest ih =>
      intro hc accf i hi
      have hfst := getDistanceSeries_fst_consistent mw.1 q pns
        (hc mw (List.mem_cons_self mw rest))
      have htail := ih (fun x hx => hc x (List.mem_cons_of_mem mw hx))
        (fun nb => accf nb + mw.1.distanceMetric q nb * mw.2) (i + 1) (by omega)
      simp only [CachingKNearestNeighboursFinder.sumLoop, hfst]
      simp [Function.comp_def, if_neg hi, List.map_map, zipWith_map_same, htail,
        add_assoc]

/-- Starting the accumulation loop cold (`summedDistanceSeries = None`,
`i = 0`) over a nonempty component list with cold-or-consistent caches gives
exactly the elementwise weighted sum. -/
theorem sumLoop_consistent_start (q : Pt) (pns : List Pt)
    (wms : List (CachedSeriesDistanceMetric × ℚ)) (hne : wms ≠ [])
    (hc : ∀ mw ∈ wms, mw.1.cache.lookup q.Index = none
        ∨ mw.1.cache.lookup q.Index
            = some (pns.map (fun nb => mw.1.distanceMetric q nb))) :
    (CachingKNearestNeighboursFinder.sumLoop wms q pns none 0).1
      = some (pns.map (fun nb =>
          (wms.map (fun mw => mw.1.distanceMetric q nb * mw.2)).sum)) := by
  cases wms with
  | nil => exact absurd rfl hne
  | cons mw rest =>
      have hfst := getDistanceSeries_fst_consistent mw.1 q pns
        (hc mw (List.mem_cons_self mw rest))
      have htail := sumLoop_consistent q pns rest
        (fun x hx => hc x (List.mem_cons_of_mem mw hx))
        (fun nb => mw.1.distanceMetric q nb * mw.2) 1 (by omega)
      simp only [CachingKNearestNeighboursFinder.sumLoop, hfst]
      simp [Function.comp_def, List.map_map, htail]

/-- The deterministic stable sort of the enumerated distance series, read
back through the positions, is exactly the plain finder's stable sort of the
neighbors. -/
theorem take_sortK_positions_eq (pns : List Pt) (q : Pt) (dist : Pt → ℚ) (k : Nat) :
    ((sortK Prod.snd (enumF 0 (pns.map dist))).take k).map
        (fun p => Neighbor.mk (pns.getD p.1 q) p.2)
      = (sortK Neighbor.distance
          (pns.map (fun neighborTuple =>
            Neighbor.mk neighborTuple (dist neighborTuple)))).take k := by
  have hS := sortK_map (fun p : Nat × Pt => dist p.2) Prod.snd
    (fun p : Nat × Pt => (p.1, dist p.2)) (fun a => rfl) (enumF 0 pns)
  set S := sortK (fun p : Nat × Pt => dist p.2) (enumF 0 pns) with hSdef
  have hmemS : ∀ p ∈ S, pns.get? p.1 = some p.2 := by
    intro p hp
    have hp2 := (mem_sortK _ _ p).mp hp
    rcases (mem_enumF 0 pns p).mp hp2 with ⟨j, hj1, hj2⟩
    have hj : j = p.1 := by omega
    rwa [hj] at hj2
  have hplain : sortK Neighbor.distance
      (pns.map (fun neighborTuple => Neighbor.mk neighborTuple (dist neighborTuple)))
      = S.map (fun p => Neighbor.mk p.2 (dist p.2)) := by
    have h1 : pns.map (fun neighborTuple => Neighbor.mk neighborTuple (dist neighborTuple))
        = (enumF 0 pns).map (fun p => Neighbor.mk p.2 (dist p.2)) := by
      conv_lhs => rw [← enumF_map_snd 0 pns]
      rw [List.map_map]
      rfl
    rw [h1]
    exact sortK_map (fun p : Nat × Pt => dist p.2) Neighbor.distance
      (fun p => Neighbor.mk p.2 (dist p.2)) (fun a => rfl) (enumF 0 pns)
  rw [enumF_map, hS, hplain]
  rw [← List.map_take, ← List.map_take, List.map_map]
  apply List.map_congr_left
  intro s hs
  have hmem : s ∈ S := List.mem_of_mem_take hs
  have hget := hmemS s hmem
  have hget2 : pns[s.1]? = some s.2 := by
    rw [← List.get?_eq_getElem?]
    exact hget
  simp [Function.comp, hget2]

/-- The result the sort-generic caching finder builds from the summed series
`pns.map dist`, for any value-sorted permutation: the guard holds, the result
has length `k`, its distance sequence equals the plain (stably sorted)
finder's, every entry pairs a potential neighbor with its true distance, and
with pairwise-distinct distances the result equals the plain finder's
exactly. -/
theorem cachingResult_spec (sortValues : List (Nat × ℚ) → List (Nat × ℚ))
    (hsorted : ∀ l, (sortValues l).Pairwise (fun a b => a.2 ≤ b.2))
    (hperm : ∀ l, List.Perm (sortValues l) l)
    (pns : List Pt) (q : Pt) (dist : Pt → ℚ) (k : Nat) (hk : k ≤ pns.length) :
    (k ≤ (sortValues (enumF 0 (pns.map dist))).length
      ∧ ∀ p ∈ (sortValues (enumF 0 (pns.map dist))).take k, p.1 < pns.length)
    ∧ (((sortValues (enumF 0 (pns.map dist))).take k).map
        (fun p => Neighbor.mk (pns.getD p.1 q) p.2)).length = k
    ∧ ((((sortValues (enumF 0 (pns.map dist))).take k).map
        (fun p => Neighbor.mk (pns.getD p.1 q) p.2)).map Neighbor.distance
        = (((sortK Neighbor.distance
            (pns.map (fun neighborTuple => Neighbor.mk neighborTuple
              (dist neighborTuple)))).take k).map Neighbor.distance))
    ∧ (∀ nb ∈ ((sortValues (enumF 0 (pns.map dist))).take k).map
          (fun p => Neighbor.mk (pns.getD p.1 q) p.2),
        nb.value ∈ pns ∧ nb.distance = dist nb.value)
    ∧ ((pns.map dist).Nodup →
        ((sortValues (enumF 0 (pns.map dist))).take k).map
            (fun p => Neighbor.mk (pns.getD p.1 q) p.2)
          = (sortK Neighbor.distance
              (pns.map (fun neighborTuple => Neighbor.mk neighborTuple
                (dist neighborTuple)))).take k) := by
  set S := sortValues (enumF 0 (pns.map dist)) with hSdef
  have hSperm : List.Perm S (enumF 0 (pns.map dist)) := hperm _
  have hSsorted : S.Pairwise (fun a b => a.2 ≤ b.2) := hsorted _
  have hmemS : ∀ p ∈ S, (pns.map dist).get? p.1 = some p.2 := by
    intro p hp
    have hp2 := hSperm.mem_iff.mp hp
    rcases (mem_enumF 0 (pns.map dist) p).mp hp2 with ⟨j, hj1, hj2⟩
    have hj : j = p.1 := by omega
    rwa [hj] at hj2
  have hposS : ∀ p ∈ S, p.1 < pns.length := by
    intro p hp
    by_contra hge
    have hnone : (pns.map dist).get? p.1 = none :=
      List.get?_eq_none.mpr (by rw [List.length_map]; omega)
    rw [hmemS p hp] at hnone
    cases hnone
  have hSlen : S.length = pns.length := by
    rw [hSperm.length_eq, length_enumF, List.length_map]
  have hguard : k ≤ S.length ∧ ∀ p ∈ S.take k, p.1 < pns.length := by
    refine ⟨by omega, ?_⟩
    intro p hp
    exact hposS p (List.mem_of_mem_take hp)
  have hdistmap : S.map Prod.snd
      = (sortK Neighbor.distance (pns.map (fun neighborTuple =>
          Neighbor.mk neighborTuple (dist neighborTuple)))).map Neighbor.distance := by
    have h1 : List.Perm (S.map Prod.snd) (pns.map dist) := by
      have h2 := hSperm.map Prod.snd
      rwa [enumF_map_snd] at h2
    have h3 : List.Perm
        ((sortK Neighbor.distance (pns.map (fun neighborTuple =>
          Neighbor.mk neighborTuple (dist neighborTuple)))).map Neighbor.distance)
        (pns.map dist) := by
      have h4 := (sortK_perm Neighbor.distance
        (pns.map (fun neighborTuple =>
          Neighbor.mk neighborTuple (dist neighborTuple)))).map Neighbor.distance
      rw [List.map_map] at h4
      simpa [Function.comp] using h4
    exact map_key_eq_of_perm_of_sorted Prod.snd Neighbor.distance S _
      (h1.trans h3.symm) hSsorted (sortK_pairwise_le _ _)
  refine ⟨hguard, ?_, ?_, ?_, ?_⟩
  · rw [List.length_map, List.length_take]
    omega
  · rw [List.map_map]
    have e1 : (S.take k).map
        (Neighbor.distance ∘ fun p => Neighbor.mk (pns.getD p.1 q) p.2)
        = (S.take k).map Prod.snd :=
      List.map_congr_left (fun p _ => rfl)
    rw [e1, List.map_take, hdistmap, ← List.map_take]
  · intro nb hnb
    rcases List.mem_map.mp hnb with ⟨p, hp, rfl⟩
    have hpS : p ∈ S := List.mem_of_mem_take hp
    have hget := hmemS p hpS
    rw [get?_map_local] at hget
    rcases hopt : pns.get? p.1 with _ | v
    · rw [hopt] at hget
      cases hget
    · rw [hopt] at hget
      simp only [Option.map_some'] at hget
      injection hget with hget
      have hv : pns.getD p.1 q = v := by
        rw [List.getD_eq_getElem?_getD, ← List.get?_eq_getElem?, hopt]
        rfl
      constructor
      · show pns.getD p.1 q ∈ pns
        rw [hv]
        exact List.get?_mem hopt
      · show p.2 = dist (pns.getD p.1 q)
        rw [hv, ← hget]
  · intro hnd
    have hndpw : (pns.map dist).Pairwise (fun a b => a ≠ b) := hnd
    have henum : (enumF 0 (pns.map dist)).Pairwise (fun a b => a.2 ≠ b.2) :=
      pairwise_snd_enumF (fun a b => a ≠ b) 0 (pns.map dist) hndpw
    have hSne : S.Pairwise (fun a b : Nat × ℚ => a.2 ≠ b.2) :=
      (hSperm.pairwise_iff (fun hab => Ne.symm hab)).mpr henum
    have hSlt : S.Pairwise (fun a b : Nat × ℚ => a.2 < b.2) := by
      refine (hSsorted.and hSne).imp ?_
      intro a b hab
      exact lt_of_le_of_ne hab.1 hab.2
    have hSKperm := sortK_perm Prod.snd (enumF 0 (pns.map dist))
    have hSKne : (sortK Prod.snd (enumF 0 (pns.map dist))).Pairwise
        (fun a b : Nat × ℚ => a.2 ≠ b.2) :=
      (hSKperm.pairwise_iff (fun hab => Ne.symm hab)).mpr henum
    have hSKlt : (sortK Prod.snd (enumF 0 (pns.map dist))).Pairwise
        (fun a b : Nat × ℚ => a.2 < b.2) := by
      refine ((sortK_pairwise_le Prod.snd (enumF 0 (pns.map dist))).and hSKne).imp ?_
      intro a b hab
      exact lt_of_le_of_ne hab.1 hab.2
    have hSeq : S = sortK Prod.snd (enumF 0 (pns.map dist)) :=
      eq_of_perm_of_sorted_strictKey Prod.snd _ _ (hSperm.trans hSKperm.symm) hSlt hSKlt
    rw [hSeq]
    exact take_sortK_positions_eq pns q dist k

/-- C1 amended: for every dataset, fixed neighbor provider, distance metric
(atomic or a `LinearCombinationDistanceMetric`), query point `q`, every
admissible `sort_values` (any value-sorted permutation — the default
quicksort kind leaves ties unspecified), component caches that are cold or
provider-consistent, and every `k` not exceeding the number of potential
neighbors: the caching finder succeeds with `k` neighbors whose distance
sequence equals the plain finder's over the combined metric, each entry
pairing a potential neighbor with its true combined distance; and when the
combined distances are pairwise distinct the two results are identical. -/
theorem C1_cache_equivalence_amended
    (dm : DistanceMetricSpec) (cacheOf : (Pt → Pt → ℚ) → List (Nat × List ℚ))
    (provider : Pt → List Pt) (q : Pt) (k : Nat)
    (sortValues : List (Nat × ℚ) → List (Nat × ℚ))
    (hsorted : ∀ l, (sortValues l).Pairwise (fun a b => a.2 ≤ b.2))
    (hperm : ∀ l, List.Perm (sortValues l) l)
    (hne : CachingKNearestNeighboursFinder.init dm cacheOf ≠ [])
    (hc : ∀ mw ∈ CachingKNearestNeighboursFinder.init dm cacheOf,
        mw.1.cache.lookup q.Index = none
        ∨ mw.1.cache.lookup q.Index
            = some ((provider q).map (fun nb => mw.1.distanceMetric q nb)))
    (hk : k ≤ (provider q).length) :
    ∃ res,
      (CachingKNearestNeighboursFinder.findNeighborsWith sortValues
          (CachingKNearestNeighboursFinder.init dm cacheOf) provider q k).1
        = some res
      ∧ res.length = k
      ∧ res.map Neighbor.distance
          = (KNearestNeighboursFinder.findNeighbors provider
              (DistanceMetricSpec.distance dm) q k).map Neighbor.distance
      ∧ (∀ nb ∈ res, nb.value ∈ provider q
          ∧ nb.distance = DistanceMetricSpec.distance dm q nb.value)
      ∧ (((provider q).map (fun nb => DistanceMetricSpec.distance dm q nb)).Nodup →
          res = KNearestNeighboursFinder.findNeighbors provider
            (DistanceMetricSpec.distance dm) q k) := by
  have hsum0 := sumLoop_consistent_start q (provider q)
    (CachingKNearestNeighboursFinder.init dm cacheOf) hne hc
  have hsum : (CachingKNearestNeighboursFinder.sumLoop
      (CachingKNearestNeighboursFinder.init dm cacheOf) q (provider q) none 0).1
      = some ((provider q).map (fun nb => DistanceMetricSpec.distance dm q nb)) := by
    rw [hsum0]
    refine congrArg some (List.map_congr_left ?_)
    intro nb _
    exact init_weighted_sum dm cacheOf q nb
  obtain ⟨hguard, hlen, hdists, hmem, hnodup⟩ := cachingResult_spec sortValues hsorted
    hperm (provider q) q (fun nb => DistanceMetricSpec.distance dm q nb) k hk
  simp only [CachingKNearestNeighboursFinder.findNeighborsWith, hsum]
  rw [if_pos hguard]
  refine ⟨_, rfl, hlen, ?_, hmem, ?_⟩
  · simp only [KNearestNeighboursFinder.findNeighbors]
    exact hdists
  · intro hnd
    simp only [KNearestNeighboursFinder.findNeighbors]
    exact hnodup hnd

/-- C1 witness: a two-component linear combination over a one-point dataset
with cold caches, sorted by the (admissible) stable `sortK`: the caching
result matches the plain finder over the combined metric (the single
combined distance is trivially tie-free, so the results are identical). -/
theorem C1_cache_equivalence_witness :
    ∃ res,
      (CachingKNearestNeighboursFinder.findNeighborsWith (sortK Prod.snd)
          (CachingKNearestNeighboursFinder.init
            (DistanceMetricSpec.linearCombination
              [(2, fun a b => b.t - a.t), (3, fun _ _ => 1)]) (fun _ => []))
          (fun _ => [Pt.mk 1 [] 5]) (Pt.mk 0 [] 2) 1).1
        = some res
      ∧ res.length = 1
      ∧ res.map Neighbor.distance
          = (KNearestNeighboursFinder.findNeighbors (fun _ => [Pt.mk 1 [] 5])
              (DistanceMetricSpec.distance
                (DistanceMetricSpec.linearCombination
                  [(2, fun a b => b.t - a.t), (3, fun _ _ => 1)]))
              (Pt.mk 0 [] 2) 1).map Neighbor.distance
      ∧ (∀ nb ∈ res, nb.value ∈ [Pt.mk 1 [] 5]
          ∧ nb.distance = DistanceMetricSpec.distance
              (DistanceMetricSpec.linearCombination
                [(2, fun a b => b.t - a.t), (3, fun _ _ => 1)])
              (Pt.mk 0 [] 2) nb.value)
      ∧ (([Pt.mk 1 [] 5].map (fun nb => DistanceMetricSpec.distance
            (DistanceMetricSpec.linearCombination
              [(2, fun a b => b.t - a.t), (3, fun _ _ => 1)])
            (Pt.mk 0 [] 2) nb)).Nodup →
          res = KNearestNeighboursFinder.findNeighbors (fun _ => [Pt.mk 1 [] 5])
            (DistanceMetricSpec.distance
              (DistanceMetricSpec.linearCombination
                [(2, fun a b => b.t - a.t), (3, fun _ _ => 1)]))
            (Pt.mk 0 [] 2) 1) :=
  C1_cache_equivalence_amended
    (DistanceMetricSpec.linearCombination [(2, fun a b => b.t - a.t), (3, fun _ _ => 1)])
    (fun _ => []) (fun _ => [Pt.mk 1 [] 5]) (Pt.mk 0 [] 2) 1 (sortK Prod.snd)
    (fun l => sortK_pairwise_le Prod.snd l) (fun l => sortK_perm Prod.snd l)
    (by simp [CachingKNearestNeighboursFinder.init])
    (by
      intro mw hmw
      simp only [CachingKNearestNeighboursFinder.init, List.map_cons, List.map_nil,
        List.mem_cons, List.not_mem_nil, or_false] at hmw
      rcases hmw with rfl | rfl
      · left
        rfl
      · left
        rfl)
    (by decide)
